import Mathlib

/-!
Verification of the stamps backend (server.js).

This file embeds the core of the server in Lean 4: the JavaScript-value
model for on-chain metadata probing, the address codec (toStakeAddress
together with a faithful model of the npm bech32 package it calls), the
variant matcher (matchVariantOnchain, extractNumber,
resolveFromLocalByName), the holdings aggregator (listPolicyUnits and
computeHoldings over explicit cache states), the reveal route handler, and
a spec-modelled ownership-challenge state machine.  Strings are modelled
as lists of characters; machine arithmetic stays inside Nat with explicit
masks where JavaScript 32-bit semantics matter.
-/

set_option maxRecDepth 20000

/-- JavaScript strings are modelled as lists of characters. -/
abbrev JStr := List Char

/-- Model of a JavaScript value as it appears in parsed JSON metadata:
null, undefined, string, integer number, boolean, array, or object
(field list, first binding wins on lookup). -/
inductive JsVal where
  | jnull : JsVal
  | jundef : JsVal
  | jstr : JStr → JsVal
  | jnum : Int → JsVal
  | jbool : Bool → JsVal
  | jarr : List JsVal → JsVal
  | jobj : List (JStr × JsVal) → JsVal

open JsVal

instance : Inhabited JsVal := ⟨JsVal.jnull⟩

/-- JavaScript truthiness for the modelled values: null, undefined, the
empty string, the number 0 and false are falsy; arrays and objects are
always truthy. -/
def truthy : JsVal → Bool
  | jnull => false
  | jundef => false
  | jstr s => !s.isEmpty
  | jnum n => n != 0
  | jbool b => b
  | jarr _ => true
  | jobj _ => true

/-- Field access with optional-chaining semantics: reading a field of a
non-object (including null and undefined) yields undefined, as the
source only reads fields through the ?. operator or from values already
known to be objects. -/
def getField : JsVal → JStr → JsVal
  | jobj fs, k =>
    match fs.find? (fun p => p.1 = k) with
    | some p => p.2
    | none => jundef
  | _, _ => jundef

/-- The JavaScript || operator on modelled values. -/
def jsOr (a b : JsVal) : JsVal := if truthy a then a else b

/-- Digits of a natural number, most significant first. -/
def natDigits (n : Nat) : JStr :=
  (Nat.toDigits 10 n).map id

/-- The JavaScript String(x) conversion for the modelled values (objects
and arrays are only converted in contexts the claims do not exercise, so
the object form is the generic [object Object] placeholder). -/
def jsToString : JsVal → JStr
  | jnull => "null".toList
  | jundef => "undefined".toList
  | jstr s => s
  | jnum n => if n < 0 then '-' :: natDigits n.natAbs else natDigits n.natAbs
  | jbool b => if b then "true".toList else "false".toList
  | jarr _ => [].asString.toList
  | jobj _ => "[object Object]".toList

/-- Extract the character list of a string value; the API fields this is
applied to are strings by the provider contract. -/
def jsStr : JsVal → JStr
  | jstr s => s
  | _ => []

/-- ASCII lower-casing of one character (the identifiers and variant keys
handled by the server are ASCII). -/
def lowerChar (c : Char) : Char :=
  if 'A' ≤ c ∧ c ≤ 'Z' then Char.ofNat (c.toNat + 32) else c

/-- ASCII upper-casing of one character. -/
def upperChar (c : Char) : Char :=
  if 'a' ≤ c ∧ c ≤ 'z' then Char.ofNat (c.toNat - 32) else c

/-- Model of the JavaScript toLowerCase for the ASCII strings in play. -/
def jsLower (s : JStr) : JStr := s.map lowerChar

/-- Model of the JavaScript toUpperCase for the ASCII strings in play. -/
def jsUpper (s : JStr) : JStr := s.map upperChar

/-- Whitespace recognised by the JavaScript trim (ASCII part). -/
def isJsSpace (c : Char) : Bool :=
  c = ' ' ∨ c = '\t' ∨ c = '\n' ∨ c = '\r' ∨ c.toNat = 11 ∨ c.toNat = 12 ∨ c.toNat = 0xa0

/-- Model of the JavaScript String.prototype.trim. -/
def jsTrim (s : JStr) : JStr :=
  ((s.dropWhile isJsSpace).reverse.dropWhile isJsSpace).reverse

/-- Case-insensitive substring test, modelling a case-insensitive regular
expression test such as /blood/i.test(s). -/
def containsCI (needle s : JStr) : Bool :=
  (List.range (s.length + 1)).any (fun i => (jsUpper needle).isPrefixOf (jsUpper (s.drop i)))

/-- Hex-digit test of the /[0-9a-f]/i character class. -/
def isHexDigit (c : Char) : Bool :=
  ('0' ≤ c ∧ c ≤ '9') ∨ ('a' ≤ c ∧ c ≤ 'f') ∨ ('A' ≤ c ∧ c ≤ 'F')

/-- The isHex helper of toStakeAddress: the string is nonempty and made
of hex digits only (the /^[0-9a-f]+$/i test). -/
def isHexStr (s : JStr) : Bool := !s.isEmpty ∧ s.all isHexDigit

/-- Value of one hex digit. -/
def hexVal (c : Char) : Nat :=
  if '0' ≤ c ∧ c ≤ '9' then c.toNat - '0'.toNat
  else if 'a' ≤ c ∧ c ≤ 'f' then c.toNat - 'a'.toNat + 10
  else if 'A' ≤ c ∧ c ≤ 'F' then c.toNat - 'A'.toNat + 10
  else 0

/-- Model of Buffer.from(s, hex) on an all-hex string: consecutive pairs
of digits become bytes and a trailing unpaired digit is dropped. -/
def hexPairs : JStr → List Nat
  | a :: b :: rest => (16 * hexVal a + hexVal b) :: hexPairs rest
  | _ => []

/-- Strict UTF-8 decoding of a byte run to code points.  This is the
decoder decodeURIComponent applies to percent-escaped byte sequences
(overlong forms and surrogate halves are rejected with a URIError,
modelled as none). -/
def utf8Decode : List Nat → Option (List Nat)
  | [] => some []
  | b :: rest =>
    if b < 0x80 then (utf8Decode rest).map (b :: ·)
    else if 0xc2 ≤ b ∧ b ≤ 0xdf then
      match rest with
      | c :: r2 =>
        if 0x80 ≤ c ∧ c ≤ 0xbf then
          (utf8Decode r2).map (((b - 0xc0) * 64 + (c - 0x80)) :: ·)
        else none
      | _ => none
    else if 0xe0 ≤ b ∧ b ≤ 0xef then
      match rest with
      | c :: d :: r2 =>
        if (if b = 0xe0 then 0xa0 else 0x80) ≤ c ∧ c ≤ (if b = 0xed then 0x9f else 0xbf)
            ∧ 0x80 ≤ d ∧ d ≤ 0xbf then
          (utf8Decode r2).map (((b - 0xe0) * 4096 + (c - 0x80) * 64 + (d - 0x80)) :: ·)
        else none
      | _ => none
    else if 0xf0 ≤ b ∧ b ≤ 0xf4 then
      match rest with
      | c :: d :: e :: r2 =>
        if (if b = 0xf0 then 0x90 else 0x80) ≤ c ∧ c ≤ (if b = 0xf4 then 0x8f else 0xbf)
            ∧ 0x80 ≤ d ∧ d ≤ 0xbf ∧ 0x80 ≤ e ∧ e ≤ 0xbf then
          (utf8Decode r2).map
            (((b - 0xf0) * 262144 + (c - 0x80) * 4096 + (d - 0x80) * 64 + (e - 0x80)) :: ·)
        else none
      | _ => none
    else none

/-- Tokens of the string handed to decodeURIComponent: either a percent
escape carrying a byte or a plain character. -/
inductive PctTok where
  | byte : Nat → PctTok
  | plain : Char → PctTok

/-- The replace step of hexToAscii: scanning left to right, every pair of
hex digits becomes a percent escape (the regex [0-9a-f]{2}/gi with the
%$& replacement) and any other character is kept as-is. -/
def pctTokens : JStr → List PctTok
  | a :: b :: rest =>
    if isHexDigit a ∧ isHexDigit b then .byte (16 * hexVal a + hexVal b) :: pctTokens rest
    else .plain a :: pctTokens (b :: rest)
  | [a] => [.plain a]
  | [] => []

/-- Segments of the token list: maximal byte runs and plain characters. -/
def pctSegs (toks : List PctTok) : List (List Nat ⊕ Char) :=
  toks.foldr (fun t acc =>
    match t with
    | .plain c => Sum.inr c :: acc
    | .byte b =>
      match acc with
      | Sum.inl run :: rest => Sum.inl (b :: run) :: rest
      | _ => Sum.inl [b] :: acc) []

/-- UTF-8 decode each maximal byte run and keep plain characters, as
decodeURIComponent does; none models the URIError throw. -/
def decodeSegs : List (List Nat ⊕ Char) → Option JStr
  | [] => some []
  | Sum.inr c :: rest => (decodeSegs rest).map (c :: ·)
  | Sum.inl run :: rest =>
    match utf8Decode run, decodeSegs rest with
    | some cps, some s => some (cps.map Char.ofNat ++ s)
    | _, _ => none

/-- Full decodeURIComponent model over the token list. -/
def pctDecode (toks : List PctTok) : Option JStr := decodeSegs (pctSegs toks)

/-- The hexToAscii helper: empty input gives the empty string, otherwise
the percent-escape rewrite is decoded; a URIError from decodeURIComponent
is caught and gives the empty string. -/
def hexToAscii (s : JStr) : JStr :=
  if s.isEmpty then []
  else
    match pctDecode (pctTokens s) with
    | some out => out
    | none => []

/-- hexToAscii as applied to an optional metadata field (the call sites
pass info.asset_name or the empty string; the provider returns asset
names as hex strings). -/
def hexToAsciiJ (v : JsVal) : JStr := hexToAscii (jsStr v)

/-- The ipfs helper of the authoritative server: rewrite an ipfs:// URI
to the blockfrost gateway and pass every other value through. -/
def ipfs (v : JsVal) : JsVal :=
  match v with
  | jstr s =>
    if "ipfs://".toList.isPrefixOf s then jstr ("https://ipfs.blockfrost.dev/ipfs/".toList ++ s.drop 7)
    else v
  | _ => v

/-- Maximal run of decimal digits at the end of a string. -/
def trailingDigits (s : JStr) : JStr :=
  (s.reverse.takeWhile Char.isDigit).reverse

/-- The capture of the /_(\d{1,4})$/ match: the trailing digit run when
it has length 1 to 4 and is preceded by an underscore. -/
def tailNumber (s : JStr) : Option JStr :=
  let ds := trailingDigits s
  if 1 ≤ ds.length ∧ ds.length ≤ 4 ∧ (s.take (s.length - ds.length)).getLast? = some '_' then
    some ds
  else none

/-- Bits of a natural number, most significant first, at a given width. -/
def natBits : Nat → Nat → List Bool
  | 0, _ => []
  | w + 1, n => n.testBit w :: natBits w n

/-- Value of a bit list read most significant first. -/
def bitsVal (bs : List Bool) : Nat :=
  bs.foldl (fun a b => 2 * a + (if b then 1 else 0)) 0

/-- Worker for chunks: collect the current group (reversed) with its
remaining capacity. -/
def chunksGo (k : Nat) : List α → List α → Nat → List (List α)
  | [], acc, _ => if acc.isEmpty then [] else [acc.reverse]
  | x :: xs, acc, cap =>
    if cap ≤ 1 then (x :: acc).reverse :: chunksGo k xs [] (k + 1)
    else chunksGo k xs (x :: acc) (cap - 1)

/-- Split a list into consecutive groups of k+1 elements; the last group
may be shorter. -/
def chunks (k : Nat) (l : List α) : List (List α) :=
  chunksGo k l [] (k + 1)

/-- Pad a list on the right to length n. -/
def padTo (n : Nat) (x : α) (l : List α) : List α :=
  l ++ List.replicate (n - l.length) x

/-- bech32.toWords of the npm bech32 package: regroup 8-bit bytes into
5-bit words, most significant bit first, zero-padding the final word. -/
def toWords (bytes : List Nat) : List Nat :=
  ((chunks 4 (bytes.flatMap (natBits 8))).map (padTo 5 false)).map bitsVal

/-- bech32.fromWords: regroup 5-bit words into 8-bit bytes; fails on five
or more leftover bits (Excess padding) or any nonzero leftover bit
(Non-zero padding), as the package does. -/
def fromWords (words : List Nat) : Option (List Nat) :=
  let bits := words.flatMap (natBits 5)
  let main := bits.take (8 * (bits.length / 8))
  let rest := bits.drop (8 * (bits.length / 8))
  if 5 ≤ rest.length then none
  else if rest.any id then none
  else some ((chunks 7 main).map bitsVal)

/-- The bech32 data-character alphabet. -/
def CHARSET : JStr := "qpzry9x8gf2tvdw0s3jn54khce6mua7l".toList

/-- One step of the bech32 checksum polynomial, on 30-bit states held in
JavaScript 32-bit integers. -/
def polymodStep (pre : Nat) : Nat :=
  let b := pre >>> 25
  ((pre &&& 0x1ffffff) <<< 5)
    ^^^ (if b.testBit 0 then 0x3b6a57b2 else 0)
    ^^^ (if b.testBit 1 then 0x26508e6d else 0)
    ^^^ (if b.testBit 2 then 0x1ea119fa else 0)
    ^^^ (if b.testBit 3 then 0x3d4233dd else 0)
    ^^^ (if b.testBit 4 then 0x2a1462b3 else 0)

/-- Checksum state after absorbing a word list, as both encode and
decode fold it. -/
def polyRun (c : Nat) (ws : List Nat) : Nat :=
  ws.foldl (fun chk w => polymodStep chk ^^^ w) c

/-- The prefix contribution to the bech32 checksum (prefixChk of the
package); none models the invalid-character error for code points
outside 33..126. -/
def prefixChk (p : JStr) : Option Nat :=
  if p.any (fun c => c.toNat < 33 ∨ 126 < c.toNat) then none
  else
    let c1 := p.foldl (fun chk ch => polymodStep chk ^^^ (ch.toNat >>> 5)) 1
    some (p.foldl (fun chk ch => polymodStep chk ^^^ (ch.toNat &&& 31)) (polymodStep c1))

/-- bech32.encode with its default length limit of 90: the prefix, the
separator, one alphabet character per word and a six-word checksum.
The error results model the exceptions the package throws. -/
def bech32Encode (hrp : JStr) (words : List Nat) : Except JStr JStr :=
  if 90 < hrp.length + 7 + words.length then .error "Exceeds length limit".toList
  else
    let pre := jsLower hrp
    match prefixChk pre with
    | none => .error "Invalid prefix".toList
    | some chk0 =>
      if words.any (fun x => 32 ≤ x) then .error "Non 5-bit word".toList
      else
        let chk1 := words.foldl (fun chk x => polymodStep chk ^^^ x) chk0
        let chk2 :=
          polymodStep (polymodStep (polymodStep (polymodStep (polymodStep (polymodStep chk1))))) ^^^ 1
        .ok (pre ++ '1' :: (words.map (fun x => CHARSET.getD x 'q')
             ++ (List.range 6).map (fun i => CHARSET.getD ((chk2 >>> ((5 - i) * 5)) &&& 31) 'q')))

/-- Position of a data character in the bech32 alphabet. -/
def charsetIdx (c : Char) : Option Nat := CHARSET.findIdx? (· = c)

/-- Split a string at its last separator character 1. -/
def splitLastOne (s : JStr) : Option (JStr × JStr) :=
  match s.reverse.findIdx? (· = '1') with
  | none => none
  | some i => some (s.take (s.length - 1 - i), s.drop (s.length - i))

/-- Alphabet values of the data characters, all-or-nothing. -/
def wordVals : JStr → Option (List Nat)
  | [] => some []
  | c :: rest =>
    match charsetIdx c, wordVals rest with
    | some v, some vs => some (v :: vs)
    | _, _ => none

/-- bech32.decode with the default length limit: length and case checks,
split at the last separator, prefix and data checks, checksum
verification, and the data words without the six checksum words.  none
models every error result of the package. -/
def bech32Decode (str : JStr) : Option (JStr × List Nat) :=
  if str.length < 8 then none
  else if 90 < str.length then none
  else if str ≠ jsLower str ∧ str ≠ jsUpper str then none
  else
    match splitLastOne (jsLower str) with
    | none => none
    | some (pre, wordChars) =>
      if pre.isEmpty then none
      else if wordChars.length < 6 then none
      else
        match prefixChk pre with
        | none => none
        | some chk0 =>
          match wordVals wordChars with
          | none => none
          | some vals =>
            let chk := vals.foldl (fun chk v => polymodStep chk ^^^ v) chk0
            if chk = 1 then some (pre, vals.take (vals.length - 6)) else none

/-- The address normalizer toStakeAddress of the authoritative server.
The payment-address resolver (api.addresses(...).stake_address, an
external provider call) is abstracted as a function from the queried
address to the optional staking address; Except.error models an
exception escaping the function (the bech32 encoder throws). -/
def toStakeAddress (networkId : Nat) (resolve : JStr → Option JStr) (maybe : JStr) :
    Except JStr (Option JStr) :=
  if maybe.isEmpty then .ok none
  else if "stake1".toList.isPrefixOf maybe then .ok (some maybe)
  else if "addr1".toList.isPrefixOf maybe then .ok (resolve maybe)
  else if ¬ isHexStr maybe then .ok none
  else
    let bytes := hexPairs maybe
    if bytes.length = 28 then
      let header := (14 <<< 4) ||| (networkId &&& 0x0f)
      match bech32Encode (if networkId = 1 then "stake".toList else "stake_test".toList)
          (toWords (header :: bytes)) with
      | .ok s => .ok (some s)
      | .error e => .error e
    else if 29 ≤ bytes.length then
      let b0 := bytes.headD 0
      let ty := b0 >>> 4
      let net := b0 &&& 0x0f
      let pre :=
        if ty = 14 then (if net = 1 then "stake".toList else "stake_test".toList)
        else (if net = 1 then "addr".toList else "addr_test".toList)
      match bech32Encode pre (toWords bytes) with
      | .error e => .error e
      | .ok bech =>
        if "stake1".toList.isPrefixOf bech then .ok (some bech)
        else if "addr1".toList.isPrefixOf bech then .ok (resolve bech)
        else .ok none
    else .ok none

/-- Loose-equality test of the attrs.STAMP != null guard: only null and
undefined compare loosely equal to null. -/
def isNullish : JsVal → Bool
  | jnull => true
  | jundef => true
  | _ => false

/-- Keys of an object value (Object.keys). -/
def objKeys : JsVal → List JStr
  | jobj fs => fs.map (·.1)
  | _ => []

/-- The decoded ASCII asset name: hexToAscii(info.asset_name || ''); the
provider returns asset names as hex strings. -/
def asciiNameOf (info : JsVal) : JStr :=
  hexToAscii (jsStr (jsOr (getField info "asset_name".toList) (jstr [])))

/-- The on-chain variant matcher of the authoritative server: the
attributes/traits/top-level slot probe followed by the name-prefix
heuristic. -/
def matchVariantOnchain (variantKey : JStr) (info : JsVal) : Bool :=
  let meta := getField info "onchain_metadata".toList
  let attrs := jsOr (getField meta "attributes".toList)
    (jsOr (getField meta "traits".toList) (jsOr meta (jobj [])))
  let slot := jsTrim (jsToString (jsOr (getField attrs "slot".toList)
    (jsOr (getField attrs "Slot".toList) (jstr []))))
  if (!slot.isEmpty) ∧ jsUpper slot = jsUpper variantKey then true
  else
    let ascii := asciiNameOf info
    if (!ascii.isEmpty) ∧ (jsUpper (variantKey ++ ['_'])).isPrefixOf (jsUpper ascii) then true
    else false

/-- extractNumber of the authoritative server: the STAMP attribute, else
the trailing underscore-digits capture of the ASCII name, else the tail
of the unit identifier past the 56-character policy id. -/
def extractNumber (info : JsVal) (fallbackUnitTail : Bool) : JStr :=
  let meta := getField info "onchain_metadata".toList
  let attrs := jsOr (getField meta "attributes".toList)
    (jsOr (getField meta "traits".toList) (jobj []))
  let stamp := getField attrs "STAMP".toList
  if ¬ isNullish stamp then jsToString stamp
  else
    match tailNumber (asciiNameOf info) with
    | some ds => ds
    | none =>
      if fallbackUnitTail ∧ truthy (getField info "asset".toList) then
        (jsStr (getField info "asset".toList)).drop 56
      else []

/-- The record resolveFromLocalByName builds from a loc index row. -/
structure LocalRes where
  variantKey : JsVal
  name : JStr
  image : JsVal
  number : JsVal
  traitFlags : List JStr

/-- resolveFromLocalByName: look the ASCII name up in the optional loc
metadata index (a map keyed by ASCII NFT name; duplicate names are
resolved by the map construction before lookup). -/
def resolveFromLocalByName (nameIndex : Option (List (JStr × JsVal))) (asciiName : JStr) :
    Option LocalRes :=
  match nameIndex with
  | none => none
  | some idx =>
    match idx.find? (fun p => p.1 = asciiName) with
    | none => none
    | some pr =>
      if ¬ truthy pr.2 then none
      else
        let r := pr.2
        some {
          variantKey := getField r "variant".toList
          name := asciiName
          image := ipfs (getField r "image".toList)
          number := jsOr (getField (getField r "traits".toList) "STAMP".toList)
            (jstr ((tailNumber asciiName).getD []))
          traitFlags := (objKeys (jsOr (getField r "traits".toList) (jobj []))).map jsLower }

/-- The loc half of the match test in computeHoldings:
loc and String(loc.variantKey) equals String(v.key) case-folded. -/
def localMatches (loc : Option LocalRes) (key : JStr) : Bool :=
  match loc with
  | some l => jsUpper (jsToString l.variantKey) = jsUpper key
  | none => false

/-- One catalog entry (variants.json row); only the fields the core
reads are modelled. -/
structure Variant where
  key : JStr
  traitIcons : JsVal

/-- Per-variant tally: count, insertion-ordered deduplicated trait-flag
set, first sample image. -/
structure Tally where
  count : Nat
  traitFlags : List JStr
  sampleImage : JsVal

instance : Inhabited Tally := ⟨⟨0, [], JsVal.jnull⟩⟩

/-- Add to an insertion-ordered set. -/
def setAdd (x : JStr) (l : List JStr) : List JStr :=
  if x ∈ l then l else l ++ [x]

/-- The fixed-vocabulary trait detection over the attributes object. -/
def detectedTraits (attrs : JsVal) : List JStr :=
  let traitText := jsToString (jsOr (getField attrs "trait".toList) (jstr []))
  (if truthy (getField attrs "blood".toList) ∨ containsCI "blood".toList traitText
   then ["blood".toList] else [])
  ++ (if truthy (getField attrs "coffee".toList) ∨ containsCI "coffee".toList traitText
      then ["coffee".toList] else [])
  ++ (if truthy (getField attrs "flip".toList) ∨ truthy (getField attrs "flipped".toList)
        ∨ containsCI "flip".toList traitText
      then ["flip".toList] else [])
  ++ (if truthy (getField attrs "laser".toList) ∨ containsCI "laser".toList traitText
      then ["laser".toList] else [])

/-- The per-match tally update of computeHoldings: bump the count, merge
detected, loc and fixed trait flags, keep the first truthy image. -/
def tallyUpdate (v : Variant) (info : JsVal) (loc : Option LocalRes) (t : Tally) : Tally :=
  let meta := getField info "onchain_metadata".toList
  let attrs := jsOr (getField meta "attributes".toList)
    (jsOr (getField meta "traits".toList) (jobj []))
  let localFlags := match loc with | some l => l.traitFlags.map jstr | none => []
  let fixed := match v.traitIcons with | jarr l => l | _ => []
  let flags := (detectedTraits attrs).map jstr ++ localFlags ++ fixed
  let tf := flags.foldl (fun acc x => setAdd (jsLower (jsToString x)) acc) t.traitFlags
  let localImg := match loc with | some l => l.image | none => jundef
  let img := jsOr localImg (ipfs (jsOr (getField meta "image".toList)
    (getField (getField info "metadata".toList) "image".toList)))
  let sample := if ¬ truthy t.sampleImage ∧ truthy img then img else t.sampleImage
  { count := t.count + 1, traitFlags := tf, sampleImage := sample }

/-- Association-list read. -/
def assocGet (l : List (JStr × α)) (k : JStr) : Option α :=
  (l.find? (fun p => p.1 = k)).map (·.2)

/-- Association-list write: overwrite in place or append. -/
def assocSet (l : List (JStr × α)) (k : JStr) (v : α) : List (JStr × α) :=
  if l.any (fun p => p.1 = k) then l.map (fun p => if p.1 = k then (k, v) else p)
  else l ++ [(k, v)]

/-- Association-list in-place update of an existing key. -/
def assocUpdate (l : List (JStr × α)) (k : JStr) (f : α → α) : List (JStr × α) :=
  l.map (fun p => if p.1 = k then (k, f p.2) else p)

/-- The environment of the server: configuration, catalog, optional
loc index, and the abstract ledger provider (payment-address resolver,
paged account-asset listing, per-unit metadata). -/
structure ServerEnv where
  networkId : Nat
  policyId : JStr
  variants : List Variant
  nameIndex : Option (List (JStr × JsVal))
  resolve : JStr → Option JStr
  assetPages : JStr → Nat → List JsVal
  assetInfo : JStr → JsVal

/-- The two bounded time-expiring caches, with insertion timestamps. -/
structure Caches where
  acc : List (JStr × Nat × List JsVal)
  info : List (JStr × Nat × JsVal)

/-- Account-assets cache time-to-live (30 seconds, in milliseconds). -/
def accTTL : Nat := 30000

/-- Asset-metadata cache time-to-live (1 hour, in milliseconds). -/
def infoTTL : Nat := 3600000

/-- Cache read: a value is returned only while its age is under the
time-to-live. -/
def cacheGet (ttl now : Nat) (c : List (JStr × Nat × α)) (k : JStr) : Option α :=
  match c.find? (fun e => e.1 = k) with
  | some e => if now < e.2.1 + ttl then some e.2.2 else none
  | none => none

/-- Cache write: always overwrites, stamping the current time. -/
def cacheSet (now : Nat) (c : List (JStr × Nat × α)) (k : JStr) (v : α) :
    List (JStr × Nat × α) :=
  (k, now, v) :: c.filter (fun e => ¬ e.1 = k)

/-- The pagination loop of listPolicyUnits: keep fetching pages while
the row count equals a whole number of full 100-row pages; fuel bounds
the loop (the loop itself terminates only when a short page arrives). -/
def fetchLoop (env : ServerEnv) (stake : JStr) : Nat → Nat → List JsVal → List JsVal
  | 0, _, rows => rows
  | fuel + 1, page, rows =>
    if rows.length = 100 * (page - 1) then
      fetchLoop env stake fuel (page + 1) (rows ++ env.assetPages stake page)
    else rows

/-- Fetch the full listing for a stake address from page 1 on. -/
def fetchAllRows (env : ServerEnv) (stake : JStr) (fuel : Nat) : List JsVal :=
  fetchLoop env stake fuel 2 (env.assetPages stake 1)

/-- Map rows to units (r.asset || r.unit), drop falsy entries, and keep
units prefixed by the configured policy id (all units when none is
configured). -/
def policyUnits (policyId : JStr) (rows : List JsVal) : List JStr :=
  (((rows.map (fun r => jsOr (getField r "asset".toList) (getField r "unit".toList))).filter
    truthy).map jsStr).filter
    (fun u => if policyId.isEmpty then true else policyId.isPrefixOf u)

/-- listPolicyUnits of the authoritative server: read the account cache
unless force is set, fetch and re-cache on a miss, then filter to the
policy. -/
def listPolicyUnits (env : ServerEnv) (now fuel : Nat) (c : Caches) (stake : JStr)
    (force : Bool) : List JStr × Caches :=
  let cached := if force then none else cacheGet accTTL now c.acc stake
  match cached with
  | some rows => (policyUnits env.policyId rows, c)
  | none =>
    let rows := fetchAllRows env stake fuel
    (policyUnits env.policyId rows, { c with acc := cacheSet now c.acc stake rows })

/-- Asset-metadata read-through cache. -/
def getAssetInfo (env : ServerEnv) (now : Nat) (c : Caches) (unit : JStr) : JsVal × Caches :=
  match cacheGet infoTTL now c.info unit with
  | some i => (i, c)
  | none =>
    let i := env.assetInfo unit
    (i, { c with info := cacheSet now c.info unit i })

/-- One fresh tally. -/
def emptyTally : Tally := { count := 0, traitFlags := [], sampleImage := jnull }

/-- One empty tally per catalog entry, in catalog order. -/
def initTallies (variants : List Variant) : List (JStr × Tally) :=
  variants.foldl (fun ts v => assocSet ts v.key emptyTally) []

/-- Result of computeHoldings. -/
structure Holdings where
  units : List JStr
  tallies : List (JStr × Tally)

/-- computeHoldings of the authoritative server: list the policy units,
initialise a tally per variant, and for each unit resolve the loc
index row once and test every variant independently (loc key equality
or the on-chain matcher); each matching variant's tally is updated.
Trait-flag sets are truncated to three at the end. -/
def computeHoldings (env : ServerEnv) (now fuel : Nat) (c : Caches) (stake : JStr)
    (force : Bool) : Holdings × Caches :=
  let r1 := listPolicyUnits env now fuel c stake force
  let units := r1.1
  let start : List (JStr × Tally) × Caches := (initTallies env.variants, r1.2)
  let res := units.foldl (fun acc unit =>
    let ic := getAssetInfo env now acc.2 unit
    let info := ic.1
    let ascii := asciiNameOf info
    let loc := resolveFromLocalByName env.nameIndex ascii
    let ts := env.variants.foldl (fun ts v =>
      if localMatches loc v.key ∨ matchVariantOnchain v.key info then
        assocUpdate ts v.key (tallyUpdate v info loc)
      else ts) acc.1
    (ts, ic.2)) start
  ({ units := units,
     tallies := res.1.map (fun p => (p.1, { p.2 with traitFlags := p.2.traitFlags.take 3 })) },
   res.2)

/-- The count read of the reveal guard: tallies?.[variantKey]?.count || 0. -/
def jsCount (tallies : List (JStr × Tally)) (k : JStr) : Nat :=
  match assocGet tallies k with
  | some t => t.count
  | none => 0

/-- Map.get on the catalog keyed by variant key; only string keys can
hit (catalog keys are unique strings). -/
def variantByKeyGet (variants : List Variant) (v : JsVal) : Option Variant :=
  match v with
  | jstr s => variants.find? (fun vv => vv.key = s)
  | _ => none

/-- Persisted per-wallet record (db.json row): reveal list plus
first/last-seen stamps (timestamps modelled as the abstract clock). -/
structure WalletRec where
  reveals : List JStr
  first_seen : Nat
  last_seen : Nat
deriving DecidableEq, Repr

/-- The persisted store (db.json). -/
structure DB where
  wallets : List (JStr × WalletRec)
deriving DecidableEq, Repr

/-- Responses of the POST /reveal route. -/
inductive RevealResp where
  | missingParams : RevealResp
  | badAddress : RevealResp
  | unknownVariant : RevealResp
  | notHolder : RevealResp
  | revealFailed : JStr → RevealResp
  | okResp : List JStr → RevealResp
deriving DecidableEq, Repr

/-- The POST /reveal handler of the authoritative server: parameter
presence, address normalization, catalog lookup, the server-side
ownership check against freshly computed holdings (403 not_holder before
any store access), then the read-modify-write of the wallet record.  The
route-level try/catch maps an escaped exception to the 500 response. -/
def postReveal (env : ServerEnv) (now fuel : Nat) (c : Caches) (db : DB) (body : JsVal) :
    RevealResp × Caches × DB :=
  let stakeV := getField body "stake".toList
  let keyV := getField body "variantKey".toList
  if ¬ truthy stakeV ∨ ¬ truthy keyV then (.missingParams, c, db)
  else
    match toStakeAddress env.networkId env.resolve (jsStr stakeV) with
    | .error e => (.revealFailed e, c, db)
    | .ok none => (.badAddress, c, db)
    | .ok (some stakeAddr) =>
      match variantByKeyGet env.variants keyV with
      | none => (.unknownVariant, c, db)
      | some _ =>
        let hc := computeHoldings env now fuel c stakeAddr false
        if jsCount hc.1.tallies (jsStr keyV) < 1 then (.notHolder, hc.2, db)
        else
          let key := jsStr keyV
          let rec0 :=
            match assocGet db.wallets stakeAddr with
            | some r => r
            | none => { reveals := [], first_seen := now, last_seen := now }
          let rec1 :=
            if key ∈ rec0.reveals then rec0 else { rec0 with reveals := rec0.reveals ++ [key] }
          let rec2 := { rec1 with last_seen := now }
          (.okResp rec2.reveals, hc.2, { wallets := assocSet db.wallets stakeAddr rec2 })

/-- Modelled from the spec: the OwnershipChallenge component (section
4.5 of the design) is absent from the repository source, which contains
no nonce issuance or signature verification; its state machine is
modelled from the specification text.  The nonce store keyed by staking
address, with issuance timestamps. -/
structure ChallengeState where
  nonces : List (JStr × (JStr × Nat))

/-- Modelled from the spec: verification failures of the
challenge-response protocol. -/
inductive VerifyErr where
  | badAddress : VerifyErr
  | noChallenge : VerifyErr
  | challengeExpired : VerifyErr
  | badSignature : VerifyErr
deriving DecidableEq, Repr

/-- Modelled from the spec: the fixed five-minute challenge lifetime. -/
def challengeTTL : Nat := 5 * 60 * 1000

/-- Modelled from the spec: issueChallenge normalizes the identifier,
draws a fresh nonce, and stores it keyed by the stake address,
overwriting any prior challenge for that address. -/
def issueChallenge (normalize : JStr → Option JStr) (st : ChallengeState) (now : Nat)
    (rawId nonce : JStr) : Except VerifyErr (JStr × ChallengeState) :=
  match normalize rawId with
  | none => .error .badAddress
  | some stake =>
    .ok (stake, { nonces := (stake, (nonce, now)) :: st.nonces.filter (fun e => ¬ e.1 = stake) })

/-- Modelled from the spec: deletion of the nonce entry of one stake
address. -/
def dropNonce (st : ChallengeState) (stake : JStr) : ChallengeState :=
  { nonces := st.nonces.filter (fun e => ¬ e.1 = stake) }

/-- Modelled from the spec: verify normalizes the identifier, fails with
NoChallenge when no nonce is stored for the stake address, fails with
ChallengeExpired (deleting the expired entry as a side effect) past the
five-minute window, fails with BadSignature (leaving the entry intact)
when signature verification of the payload embedding the stored nonce
fails under the public key, and on success deletes the nonce entry
(single use) and certifies the stake address. -/
def verifyChallenge (normalize : JStr → Option JStr) (sigOk : JStr → JStr → JStr → Bool)
    (st : ChallengeState) (now : Nat) (rawId pubKey sig : JStr) :
    Except VerifyErr JStr × ChallengeState :=
  match normalize rawId with
  | none => (.error .badAddress, st)
  | some stake =>
    match (st.nonces.find? (fun e => e.1 = stake)).map (·.2) with
    | none => (.error .noChallenge, st)
    | some entry =>
      if entry.2 + challengeTTL < now then (.error .challengeExpired, dropNonce st stake)
      else if ¬ sigOk entry.1 pubKey sig then (.error .badSignature, st)
      else (.ok stake, dropNonce st stake)

/- Concrete fixtures used by witnesses and counterexamples. -/

/-- A resolver that never finds a stake address (provider behaviour is
irrelevant on the paths exercised). -/
def noResolve : JStr → Option JStr := fun _ => none

/-- A provider listing with one single-row first page for every account
and a given metadata blob for every unit. -/
def onePageEnv (variants : List Variant) (nameIndex : Option (List (JStr × JsVal)))
    (info : JsVal) : ServerEnv :=
  { networkId := 1, policyId := [], variants := variants, nameIndex := nameIndex,
    resolve := noResolve,
    assetPages := fun _ p => if p = 1 then [jobj [("unit".toList, jstr "u1".toList)]] else [],
    assetInfo := fun _ => info }

/-- Two-variant catalog with keys A and B. -/
def catalogAB : List Variant := [⟨"A".toList, jundef⟩, ⟨"B".toList, jundef⟩]

/-- Metadata of the C1 counterexample asset: ASCII name FOO (hex
464f4f), on-chain slot attribute B. -/
def infoSlotB : JsVal :=
  jobj [("asset_name".toList, jstr "464f4f".toList),
        ("onchain_metadata".toList, jobj [("slot".toList, jstr "B".toList)])]

/-- Local index of the C1 counterexample: name FOO maps to variant A. -/
def indexFooA : List (JStr × JsVal) :=
  [("FOO".toList, jobj [("variant".toList, jstr "A".toList)])]

/-- Metadata of the C8 example asset: ASCII name A_7 (hex 415f37), no
local index row, no slot attribute. -/
def infoA7 : JsVal := jobj [("asset_name".toList, jstr "415f37".toList)]


/- Association-list and tally-coverage helper lemmas. -/

/-- A fold preserves any invariant its step preserves. -/
theorem foldl_preserve {β σ : Type _} (P : σ → Prop) (f : σ → β → σ)
    (hf : ∀ s b, P s → P (f s b)) : ∀ (l : List β) (s : σ), P s → P (l.foldl f s) := by
  intro l
  induction l with
  | nil => intro s h; simpa using h
  | cons b t ih => intro s h; exact ih _ (hf s b h)

/-- A key is present in an association list iff its lookup succeeds. -/
theorem assocGet_isSome_iff (l : List (JStr × α)) (k : JStr) :
    (assocGet l k).isSome = l.any (fun p => p.1 = k) := by
  unfold assocGet
  induction l with
  | nil => simp
  | cons a t ih =>
    by_cases ha : a.1 = k
    · simp [List.find?_cons, ha]
    · rw [List.find?_cons_of_neg _ (by simpa using ha)]
      simp [ha, ih]

/-- Replacing a value in place never changes the key set. -/
theorem any_key_map_replace (l : List (JStr × α)) (k k' : JStr) (v : α) :
    ((l.map (fun p => if p.1 = k then (k, v) else p)).any (fun p => p.1 = k'))
      = l.any (fun p => p.1 = k') := by
  induction l with
  | nil => simp
  | cons a t ih =>
    simp only [List.map_cons, List.any_cons, ih]
    congr 1
    by_cases hv : a.1 = k
    · simp [hv]
    · simp [hv]

theorem any_key_assocSet_self (l : List (JStr × α)) (k : JStr) (v : α) :
    (assocSet l k v).any (fun p => p.1 = k) = true := by
  unfold assocSet
  split
  · rename_i hany
    rw [any_key_map_replace]
    exact hany
  · simp

theorem any_key_assocSet_mono (l : List (JStr × α)) (k k' : JStr) (v : α)
    (h : l.any (fun p => p.1 = k') = true) :
    (assocSet l k v).any (fun p => p.1 = k') = true := by
  unfold assocSet
  split
  · rw [any_key_map_replace]
    exact h
  · simp only [List.any_append, Bool.or_eq_true]
    exact Or.inl h

theorem any_key_assocUpdate (l : List (JStr × α)) (k k' : JStr) (f : α → α) :
    (assocUpdate l k f).any (fun p => p.1 = k') = l.any (fun p => p.1 = k') := by
  unfold assocUpdate
  induction l with
  | nil => simp
  | cons a t ih =>
    simp only [List.map_cons, List.any_cons, ih]
    congr 1
    by_cases hv : a.1 = k
    · simp [hv]
    · simp [hv]

theorem any_key_map_snd (l : List (JStr × α)) (g : JStr × α → β) (k : JStr) :
    (l.map (fun p => (p.1, g p))).any (fun p => p.1 = k) = l.any (fun p => p.1 = k) := by
  induction l with
  | nil => simp
  | cons a t ih => simp [ih]

theorem initTallies_covers (variants : List Variant) (v : Variant) (hv : v ∈ variants) :
    (initTallies variants).any (fun p => p.1 = v.key) = true := by
  unfold initTallies
  suffices h : ∀ (vs : List Variant) (acc : List (JStr × Tally)),
      (v ∈ vs ∨ acc.any (fun p => p.1 = v.key) = true) →
      ((vs.foldl (fun ts u => assocSet ts u.key emptyTally) acc).any
        (fun p => p.1 = v.key)) = true by
    exact h variants [] (Or.inl hv)
  intro vs
  induction vs with
  | nil =>
    intro acc h
    rcases h with h | h
    · exact absurd h (List.not_mem_nil v)
    · simpa using h
  | cons u t ih =>
    intro acc h
    simp only [List.foldl_cons]
    rcases h with h | h
    · rcases List.mem_cons.mp h with h | h
      · exact ih _ (Or.inr (by rw [h]; exact any_key_assocSet_self _ _ _))
      · exact ih _ (Or.inl h)
    · exact ih _ (Or.inr (any_key_assocSet_mono _ _ _ _ h))

/-- Each catalog variant keeps a tally entry through the per-unit
aggregation fold of computeHoldings. -/
theorem computeHoldings_covers (env : ServerEnv) (now fuel : Nat) (c : Caches)
    (stake : JStr) (force : Bool) (v : Variant) (hv : v ∈ env.variants) :
    (assocGet (computeHoldings env now fuel c stake force).1.tallies v.key).isSome = true := by
  rw [assocGet_isSome_iff]
  unfold computeHoldings
  simp only
  rw [any_key_map_snd]
  refine foldl_preserve (fun st : List (JStr × Tally) × Caches =>
    st.1.any (fun p => p.1 = v.key) = true) _ ?_ _ _ ?_
  · intro s b hs
    simp only
    refine foldl_preserve (fun ts : List (JStr × Tally) =>
      ts.any (fun p => p.1 = v.key) = true) _ ?_ _ _ hs
    intro ts w hts
    split
    · rw [any_key_assocUpdate]; exact hts
    · exact hts
  · exact initTallies_covers env.variants v hv

/-- The pagination loop stops as soon as the row count is not a whole
number of full pages. -/
theorem fetchLoop_short (env : ServerEnv) (stake : JStr) (fuel page : Nat)
    (rows : List JsVal) (h : rows.length ≠ 100 * (page - 1)) :
    fetchLoop env stake fuel page rows = rows := by
  cases fuel <;> simp [fetchLoop, h]

/-- Tally updates increment the count by exactly one. -/
theorem tallyUpdate_count (v : Variant) (info : JsVal) (loc : Option LocalRes) (t : Tally) :
    (tallyUpdate v info loc t).count = t.count + 1 := rfl

/-- Filtering a key out of an association list makes lookups of that
key fail. -/
theorem find?_key_filter_ne (l : List (JStr × β)) (stake : JStr) :
    (l.filter (fun e => ¬ e.1 = stake)).find? (fun e => e.1 = stake) = none := by
  rw [List.find?_eq_none]
  intro x hx
  have := (List.mem_filter.mp hx).2
  simpa using this

/-- C3: the challenge-response verify operation is single-use — a
successful verification deletes the stored nonce entry for the staking
address, so a second verify call with the same still-valid signature
fails with NoChallenge. -/
theorem c3_verify_single_use (normalize : JStr → Option JStr)
    (sigOk : JStr → JStr → JStr → Bool) (st : ChallengeState) (now now2 : Nat)
    (rawId pub sig stake : JStr) (entry : JStr × JStr × Nat)
    (hn : normalize rawId = some stake)
    (hfind : st.nonces.find? (fun e => e.1 = stake) = some entry)
    (hexp : ¬ entry.2.2 + challengeTTL < now)
    (hsig : sigOk entry.2.1 pub sig = true) :
    (verifyChallenge normalize sigOk st now rawId pub sig).1 = .ok stake ∧
    ((verifyChallenge normalize sigOk st now rawId pub sig).2.nonces.find?
      (fun e => e.1 = stake)) = none ∧
    (verifyChallenge normalize sigOk
      (verifyChallenge normalize sigOk st now rawId pub sig).2 now2 rawId pub sig).1 =
      .error .noChallenge := by
  unfold verifyChallenge
  rw [hn]
  simp only [hfind, Option.map_some']
  rw [if_neg hexp, if_neg (by simp [hsig])]
  simp only [dropNonce, find?_key_filter_ne, Option.map_none']
  exact ⟨trivial, trivial, trivial⟩

/-- C3 witness: a concrete state with one live challenge verifies once
and then fails with NoChallenge. -/
theorem c3_witness :
    ((fun s => some s) "stake1a".toList = some "stake1a".toList ∧
     (ChallengeState.mk [("stake1a".toList, ("n0".toList, 5))]).nonces.find?
       (fun e => e.1 = "stake1a".toList) = some ("stake1a".toList, ("n0".toList, 5)) ∧
     ¬ (5 : Nat) + challengeTTL < 10 ∧
     (fun (_ _ _ : JStr) => true) "n0".toList "pk".toList "sg".toList = true) ∧
    (verifyChallenge (fun s => some s) (fun _ _ _ => true)
      (ChallengeState.mk [("stake1a".toList, ("n0".toList, 5))]) 10
      "stake1a".toList "pk".toList "sg".toList).1 = .ok "stake1a".toList ∧
    (verifyChallenge (fun s => some s) (fun _ _ _ => true)
      (verifyChallenge (fun s => some s) (fun _ _ _ => true)
        (ChallengeState.mk [("stake1a".toList, ("n0".toList, 5))]) 10
        "stake1a".toList "pk".toList "sg".toList).2 11
      "stake1a".toList "pk".toList "sg".toList).1 = .error .noChallenge := by
  refine ⟨⟨rfl, by decide, by decide, rfl⟩, ?_⟩
  have h := c3_verify_single_use (fun s => some s) (fun _ _ _ => true)
    (ChallengeState.mk [("stake1a".toList, ("n0".toList, 5))]) 10 11
    "stake1a".toList "pk".toList "sg".toList "stake1a".toList
    ("stake1a".toList, ("n0".toList, 5)) rfl (by decide) (by decide) rfl
  exact ⟨h.1, h.2.2⟩

/-- C8: computeHoldings keeps one tally per catalog entry regardless of
holdings (unheld variants included), and on catalog [A, B] with one held
asset named A_7, no local index row and no slot attribute, it returns
count 1 for A and count 0 for B, and the derived display number of that
asset is the string 7 (the trailing digit run after the underscore). -/
theorem c8_tallies_example :
    (∀ (env : ServerEnv) (now fuel : Nat) (c : Caches) (stake : JStr) (force : Bool)
        (v : Variant), v ∈ env.variants →
        (assocGet (computeHoldings env now fuel c stake force).1.tallies v.key).isSome = true) ∧
    jsCount (computeHoldings (onePageEnv catalogAB none infoA7) 0 5 ⟨[], []⟩
      "s".toList false).1.tallies "A".toList = 1 ∧
    jsCount (computeHoldings (onePageEnv catalogAB none infoA7) 0 5 ⟨[], []⟩
      "s".toList false).1.tallies "B".toList = 0 ∧
    ((computeHoldings (onePageEnv catalogAB none infoA7) 0 5 ⟨[], []⟩
      "s".toList false).1.tallies.map Prod.fst) = ["A".toList, "B".toList] ∧
    extractNumber infoA7 true = "7".toList :=
  ⟨computeHoldings_covers, by decide, by decide, by decide, by decide⟩

/-- C8 witness: the per-catalog-entry coverage at a concrete catalog,
cache state and force flag. -/
theorem c8_witness :
    ((⟨"A".toList, jundef⟩ : Variant) ∈ (onePageEnv catalogAB none infoA7).variants) ∧
    (assocGet (computeHoldings (onePageEnv catalogAB none infoA7) 1 2 ⟨[], []⟩
      "w".toList true).1.tallies "A".toList).isSome = true :=
  ⟨by exact List.mem_cons_self _ _,
   c8_tallies_example.1 (onePageEnv catalogAB none infoA7) 1 2 ⟨[], []⟩ "w".toList true
     ⟨"A".toList, jundef⟩ (by exact List.mem_cons_self _ _)⟩

/-- C10 counterexample: with no attributes or traits sub-object and a
top-level slot value that is the number 0, whose trimmed string form
equals the variant key 0 case-insensitively, matchVariantOnchain still
returns false — a falsy slot value is skipped by the || chain — so the
claim as stated fails at this input. -/
theorem c10_counterexample :
    matchVariantOnchain "0".toList
      (jobj [("onchain_metadata".toList, jobj [("slot".toList, jnum 0)])]) = false ∧
    jsUpper (jsTrim (jsToString (jnum 0))) = jsUpper "0".toList := by
  exact ⟨by decide, by decide⟩

/-- C10 amended: when the on-chain metadata object has neither a truthy
attributes nor a truthy traits field, slot matching reads the top-level
slot field of the metadata object itself; a truthy slot value whose
trimmed string form is nonempty and equals the variant key
case-insensitively makes matchVariantOnchain return true. -/
theorem c10_amended_toplevel_slot (key : JStr) (info meta slotv : JsVal)
    (hmeta : getField info "onchain_metadata".toList = meta)
    (htr : truthy meta = true)
    (hattrs : truthy (getField meta "attributes".toList) = false)
    (htraits : truthy (getField meta "traits".toList) = false)
    (hslot : getField meta "slot".toList = slotv)
    (hstruthy : truthy slotv = true)
    (hnonempty : (jsTrim (jsToString slotv)).isEmpty = false)
    (heq : jsUpper (jsTrim (jsToString slotv)) = jsUpper key) :
    matchVariantOnchain key info = true := by
  unfold matchVariantOnchain
  rw [hmeta]
  simp only [jsOr, hattrs, htraits, htr, hslot, hstruthy, if_false, if_true,
    Bool.false_eq_true, reduceIte]
  rw [if_pos ⟨by simp [hnonempty], heq⟩]

/-- C10 witness: a whitespace-padded lower-case top-level slot value
matches the variant key B. -/
theorem c10_witness :
    (truthy (jobj [("slot".toList, jstr "  b  ".toList)]) = true ∧
     jsUpper (jsTrim (jsToString (jstr "  b  ".toList))) = jsUpper "B".toList) ∧
    matchVariantOnchain "B".toList
      (jobj [("onchain_metadata".toList, jobj [("slot".toList, jstr "  b  ".toList)])]) = true :=
  ⟨⟨by decide, by decide⟩,
   c10_amended_toplevel_slot "B".toList _ (jobj [("slot".toList, jstr "  b  ".toList)])
     (jstr "  b  ".toList) rfl (by decide) (by decide) (by decide) rfl (by decide)
     (by decide) (by decide)⟩

/-- C1 counterexample: an asset whose local index row names variant A
while its on-chain slot attribute names variant B is tallied under BOTH
variants — the LocalIndexRow does not stop the slot attribute from
claiming the asset for a different variant, so the slot-selected variant
also receives a tally increment, contradicting the claimed first-success
precedence across variants. -/
theorem c1_counterexample :
    localMatches (resolveFromLocalByName (some indexFooA) (asciiNameOf infoSlotB))
      "A".toList = true ∧
    matchVariantOnchain "B".toList infoSlotB = true ∧
    jsCount (computeHoldings (onePageEnv catalogAB (some indexFooA) infoSlotB) 0 5 ⟨[], []⟩
      "s".toList false).1.tallies "A".toList = 1 ∧
    jsCount (computeHoldings (onePageEnv catalogAB (some indexFooA) infoSlotB) 0 5 ⟨[], []⟩
      "s".toList false).1.tallies "B".toList = 1 := by
  exact ⟨by decide, by decide, by decide, by decide⟩

/-- C1 amended: precedence is per-variant only.  For an asset with a
LocalIndexRow naming variant A, variant A matches (no on-chain heuristic
needed for it), but every other variant is still tested independently
against the on-chain heuristics, so a slot attribute naming a different
variant B gives variant B a tally increment as well: with a catalog of
exactly these two variants and one held asset, both counts are 1. -/
theorem c1_amended_independent_matching (env : ServerEnv) (vA vB : Variant)
    (info : JsVal) (stake unit : JStr) (now fuel : Nat)
    (hvars : env.variants = [vA, vB])
    (hkeys : vA.key ≠ vB.key)
    (hrows : policyUnits env.policyId (fetchAllRows env stake fuel) = [unit])
    (hinfo : env.assetInfo unit = info)
    (hloc : localMatches (resolveFromLocalByName env.nameIndex (asciiNameOf info)) vA.key = true)
    (honch : matchVariantOnchain vB.key info = true) :
    jsCount (computeHoldings env now fuel ⟨[], []⟩ stake false).1.tallies vA.key = 1 ∧
    jsCount (computeHoldings env now fuel ⟨[], []⟩ stake false).1.tallies vB.key = 1 := by
  have hks : (vA.key = vB.key) = False := by simp [hkeys]
  have hks2 : (vB.key = vA.key) = False := by simp [Ne.symm hkeys]
  unfold computeHoldings listPolicyUnits
  simp only [Bool.if_false_left, Bool.not_true, cacheGet, List.find?_nil, if_false]
  simp only [hrows, hvars, hinfo, List.foldl_cons, List.foldl_nil]
  simp only [getAssetInfo, cacheGet, List.find?_nil, hinfo]
  simp only [initTallies, List.foldl_cons, List.foldl_nil, assocSet, List.any_nil,
    List.any_cons, hks, hks2, List.nil_append, decide_False, Bool.false_or, Bool.or_false,
    List.any_nil, if_false, List.cons_append, List.nil_append]
  simp only [Bool.false_eq_true, if_false, reduceIte, List.foldl_cons, List.foldl_nil]
  simp only [List.find?_nil, hinfo, hloc, honch, true_or, or_true, if_true, reduceIte,
    List.any_cons, List.any_nil, hks, decide_False, Bool.or_false, List.cons_append,
    List.nil_append]
  simp only [assocUpdate, List.map_cons, List.map_nil, hks, hks2, decide_True, decide_False,
    reduceIte, if_true, if_false]
  simp only [jsCount, assocGet, List.find?_cons, decide_True, decide_False, hks, hks2,
    List.map_cons, List.map_nil, tallyUpdate_count, emptyTally]
  simp only [Bool.false_eq_true, if_false, reduceIte, List.map_cons, List.map_nil, hks,
    hks2, decide_True, decide_False, if_true, List.find?_cons, Option.map_some',
    tallyUpdate_count, Nat.zero_add]
  exact ⟨trivial, trivial⟩

/-- C1 witness: the amended per-variant precedence at the concrete
two-variant catalog, local index FOO to A, slot B. -/
theorem c1_witness :
    ((onePageEnv catalogAB (some indexFooA) infoSlotB).variants = [⟨"A".toList, jundef⟩,
       ⟨"B".toList, jundef⟩] ∧
     (⟨"A".toList, jundef⟩ : Variant).key ≠ (⟨"B".toList, jundef⟩ : Variant).key ∧
     policyUnits (onePageEnv catalogAB (some indexFooA) infoSlotB).policyId
       (fetchAllRows (onePageEnv catalogAB (some indexFooA) infoSlotB) "s".toList 5) =
       ["u1".toList]) ∧
    jsCount (computeHoldings (onePageEnv catalogAB (some indexFooA) infoSlotB) 7 5 ⟨[], []⟩
      "s".toList false).1.tallies "A".toList = 1 ∧
    jsCount (computeHoldings (onePageEnv catalogAB (some indexFooA) infoSlotB) 7 5 ⟨[], []⟩
      "s".toList false).1.tallies "B".toList = 1 :=
  ⟨⟨rfl, by decide, by decide⟩,
   c1_amended_independent_matching (onePageEnv catalogAB (some indexFooA) infoSlotB)
     ⟨"A".toList, jundef⟩ ⟨"B".toList, jundef⟩ infoSlotB "s".toList "u1".toList 7 5
     rfl (by decide) (by decide) rfl (by decide) (by decide)⟩

/-- C2: a reveal request with a well-formed address and a catalog
variant whose freshly computed holdings count is zero fails with
not_holder, and the store is left untouched — the returned database is
the input database, unchanged (the 403 return happens before any
read-modify-write of the wallet record). -/
theorem c2_reveal_not_holder (env : ServerEnv) (now fuel : Nat) (c : Caches) (db : DB)
    (body : JsVal) (sRaw k addr : JStr)
    (hs : getField body "stake".toList = jstr sRaw)
    (hsne : sRaw ≠ [])
    (hk : getField body "variantKey".toList = jstr k)
    (hkne : k ≠ [])
    (haddr : toStakeAddress env.networkId env.resolve sRaw = .ok (some addr))
    (hvar : (variantByKeyGet env.variants (jstr k)).isSome = true)
    (hcount : jsCount (computeHoldings env now fuel c addr false).1.tallies k = 0) :
    postReveal env now fuel c db body =
      (.notHolder, (computeHoldings env now fuel c addr false).2, db) := by
  unfold postReveal
  rw [hs, hk]
  rw [if_neg (by simp [truthy, hsne, hkne])]
  simp only [jsStr]
  rw [haddr]
  obtain ⟨v, hv⟩ := Option.isSome_iff_exists.mp hvar
  simp only [hv]
  rw [if_pos (by rw [hcount]; exact Nat.zero_lt_one)]

/-- C2 witness: the concrete reveal of unheld variant B by a holder of
only A_7 fails with not_holder and leaves the store unchanged. -/
theorem c2_witness :
    (getField (jobj [("stake".toList, jstr "stake1xyz".toList),
        ("variantKey".toList, jstr "B".toList)]) "stake".toList = jstr "stake1xyz".toList ∧
     toStakeAddress 1 noResolve "stake1xyz".toList = .ok (some "stake1xyz".toList) ∧
     jsCount (computeHoldings (onePageEnv catalogAB none infoA7) 3 5 ⟨[], []⟩
       "stake1xyz".toList false).1.tallies "B".toList = 0) ∧
    postReveal (onePageEnv catalogAB none infoA7) 3 5 ⟨[], []⟩
      (DB.mk [("stake1xyz".toList, ⟨["A".toList], 1, 2⟩)])
      (jobj [("stake".toList, jstr "stake1xyz".toList),
        ("variantKey".toList, jstr "B".toList)]) =
      (.notHolder,
       (computeHoldings (onePageEnv catalogAB none infoA7) 3 5 ⟨[], []⟩
         "stake1xyz".toList false).2,
       DB.mk [("stake1xyz".toList, ⟨["A".toList], 1, 2⟩)]) :=
  ⟨⟨rfl, rfl, by decide⟩,
   c2_reveal_not_holder (onePageEnv catalogAB none infoA7) 3 5 ⟨[], []⟩
     (DB.mk [("stake1xyz".toList, ⟨["A".toList], 1, 2⟩)])
     (jobj [("stake".toList, jstr "stake1xyz".toList),
       ("variantKey".toList, jstr "B".toList)])
     "stake1xyz".toList "B".toList "stake1xyz".toList
     rfl (by decide) rfl (by decide) rfl (by decide) (by decide)⟩

/-- A freshly set cache entry is returned while the time-to-live has
not elapsed. -/
theorem cacheGet_cacheSet_fresh (ttl now1 now2 : Nat) (c : List (JStr × Nat × α))
    (k : JStr) (v : α) (h : now2 < now1 + ttl) :
    cacheGet ttl now2 (cacheSet now1 c k v) k = some v := by
  simp [cacheGet, cacheSet, List.find?_cons, h]

/-- C7: account-cache semantics of listPolicyUnits.  A force=false call
that hits a fresh cache entry returns exactly the cached listing and
leaves the cache unchanged; two force=false calls within the
account-cache TTL against an unchanged provider return identical unit
lists; a force=true call always derives its result from a fresh provider
fetch and overwrites the cache entry with the fetched rows. -/
theorem c7_cache_semantics (env : ServerEnv) (fuel : Nat) (stake : JStr) :
    (∀ (now : Nat) (c : Caches) (rows : List JsVal),
      cacheGet accTTL now c.acc stake = some rows →
      listPolicyUnits env now fuel c stake false = (policyUnits env.policyId rows, c)) ∧
    (∀ (now1 now2 : Nat) (c : Caches),
      cacheGet accTTL now1 c.acc stake = none →
      now2 < now1 + accTTL →
      (listPolicyUnits env now2 fuel
        (listPolicyUnits env now1 fuel c stake false).2 stake false).1 =
      (listPolicyUnits env now1 fuel c stake false).1) ∧
    (∀ (now : Nat) (c : Caches),
      listPolicyUnits env now fuel c stake true =
        (policyUnits env.policyId (fetchAllRows env stake fuel),
         { c with acc := cacheSet now c.acc stake (fetchAllRows env stake fuel) })) := by
  refine ⟨?_, ?_, ?_⟩
  · intro now c rows h
    simp [listPolicyUnits, h]
  · intro now1 now2 c hmiss hlt
    simp only [listPolicyUnits, Bool.false_eq_true, if_false, reduceIte, hmiss]
    rw [cacheGet_cacheSet_fresh accTTL now1 now2 c.acc stake _ hlt]
  · intro now c
    simp [listPolicyUnits]

/-- C7 witness: the three cache properties at a concrete environment,
cache state and clock values. -/
theorem c7_witness :
    (cacheGet accTTL 4 (Caches.mk [("s".toList, 2, [jobj [("unit".toList, jstr "u1".toList)]])]
       []).acc "s".toList = some [jobj [("unit".toList, jstr "u1".toList)]] ∧
     cacheGet accTTL 4 (Caches.mk [] []).acc "s".toList = none ∧ (9 : Nat) < 4 + accTTL) ∧
    listPolicyUnits (onePageEnv catalogAB none infoA7) 4 5
      (Caches.mk [("s".toList, 2, [jobj [("unit".toList, jstr "u1".toList)]])] [])
      "s".toList false =
      (policyUnits (onePageEnv catalogAB none infoA7).policyId
        [jobj [("unit".toList, jstr "u1".toList)]],
       Caches.mk [("s".toList, 2, [jobj [("unit".toList, jstr "u1".toList)]])] []) ∧
    (listPolicyUnits (onePageEnv catalogAB none infoA7) 9 5
      (listPolicyUnits (onePageEnv catalogAB none infoA7) 4 5 (Caches.mk [] [])
        "s".toList false).2 "s".toList false).1 =
    (listPolicyUnits (onePageEnv catalogAB none infoA7) 4 5 (Caches.mk [] [])
      "s".toList false).1 :=
  ⟨⟨rfl, rfl, by decide⟩,
   (c7_cache_semantics (onePageEnv catalogAB none infoA7) 5 "s".toList).1 4
     (Caches.mk [("s".toList, 2, [jobj [("unit".toList, jstr "u1".toList)]])] [])
     [jobj [("unit".toList, jstr "u1".toList)]] rfl,
   (c7_cache_semantics (onePageEnv catalogAB none infoA7) 5 "s".toList).2.1 4 9
     (Caches.mk [] []) rfl (by decide)⟩

/- Bit-regrouping lemmas for the bech32 word conversions. -/

theorem chunksGo_spec (k : Nat) : ∀ (l acc : List α) (cap : Nat), 1 ≤ cap →
    chunksGo k l acc cap =
      if l.isEmpty ∧ acc.isEmpty then []
      else (acc.reverse ++ l.take cap) :: chunks k (l.drop cap) := by
  intro l
  induction l with
  | nil =>
    intro acc cap _
    by_cases ha : acc.isEmpty
    · simp [chunksGo, ha]
    · simp [chunksGo, ha, chunks, List.isEmpty_iff.mp, show chunksGo k [] [] (k+1) = [] from rfl]
  | cons x xs ih =>
    intro acc cap hcap
    by_cases hc : cap ≤ 1
    · have hcap1 : cap = 1 := by omega
      subst hcap1
      simp [chunksGo, chunks, List.take_succ_cons, List.take_zero, List.drop_succ_cons,
        List.drop_zero]
    · have h2 : 1 ≤ cap - 1 := by omega
      rw [show chunksGo k (x :: xs) acc cap = chunksGo k xs (x :: acc) (cap - 1) from by
        simp [chunksGo, hc]]
      rw [ih (x :: acc) (cap - 1) h2]
      have hcapeq : cap = (cap - 1) + 1 := by omega
      simp only [List.isEmpty_cons, Bool.false_eq_true, false_and, and_false, if_false,
        List.reverse_cons, List.append_assoc]
      rw [hcapeq, List.take_succ_cons, List.drop_succ_cons]
      simp

theorem chunks_cons_eq (k : Nat) (l : List α) (h : l ≠ []) :
    chunks k l = l.take (k + 1) :: chunks k (l.drop (k + 1)) := by
  unfold chunks
  rw [chunksGo_spec k l [] (k + 1) (by omega)]
  simp [h]
  rfl

theorem chunks_length (k : Nat) :
    ∀ (l : List α), (chunks k l).length = (l.length + k) / (k + 1) := by
  intro l
  generalize hn : l.length = n
  induction n using Nat.strong_induction_on generalizing l with
  | _ n ih =>
    cases l with
    | nil =>
      simp only [List.length_nil] at hn
      subst hn
      simp only [chunks, chunksGo, List.length_nil, Nat.zero_add, List.isEmpty_nil,
        if_true, reduceIte]
      exact (Nat.div_eq_of_lt (by omega)).symm
    | cons x xs =>
      rw [chunks_cons_eq k _ (by simp)]
      simp only [List.length_cons] at hn
      subst hn
      simp only [List.length_cons]
      by_cases hsm : xs.length + 1 ≤ k + 1
      · rw [List.drop_eq_nil_of_le (by simpa using hsm)]
        rw [show chunks k ([] : List α) = [] from rfl]
        rw [show (xs.length + 1 + k) / (k + 1) = 1 from
          Nat.div_eq_of_lt_le (by omega) (by omega)]
        simp
      · rw [List.drop_succ_cons]
        rw [ih (xs.drop k).length (by simp; omega) _ rfl]
        simp only [List.length_drop]
        have h1 : xs.length - k + k = xs.length := by omega
        rw [h1]
        have h2 : xs.length + 1 + k = xs.length + (k + 1) := by omega
        rw [h2, Nat.add_div_right _ (by omega)]

theorem chunks_mem_length (k : Nat) :
    ∀ (l ch : List α), ch ∈ chunks k l → ch.length ≤ k + 1 := by
  intro l
  generalize hn : l.length = n
  induction n using Nat.strong_induction_on generalizing l with
  | _ n ih =>
    intro ch hch
    cases l with
    | nil => simp [chunks, chunksGo] at hch
    | cons x xs =>
      rw [chunks_cons_eq k _ (by simp)] at hch
      subst hn
      rcases List.mem_cons.mp hch with h | h
      · rw [h]
        simpa using List.length_take_le (k + 1) (x :: xs)
      · exact ih ((x :: xs).drop (k + 1)).length (by simp; omega) _ rfl ch h

theorem length_flatMap_const (f : α → List β) (n : Nat) :
    ∀ (l : List α), (∀ x ∈ l, (f x).length = n) → (l.flatMap f).length = n * l.length := by
  intro l
  induction l with
  | nil => simp
  | cons x t ih =>
    intro h
    simp only [List.flatMap_cons, List.length_append, List.length_cons]
    rw [h x (by simp), ih (fun y hy => h y (by simp [hy]))]
    ring

theorem flatMap_congr_mem (f g : α → List β) :
    ∀ (l : List α), (∀ x ∈ l, f x = g x) → l.flatMap f = l.flatMap g := by
  intro l
  induction l with
  | nil => simp
  | cons x t ih =>
    intro h
    simp only [List.flatMap_cons]
    rw [h x (by simp), ih (fun y hy => h y (by simp [hy]))]

theorem natBits_length (w n : Nat) : (natBits w n).length = w := by
  induction w generalizing n with
  | zero => rfl
  | succ w ih => simp [natBits, ih]

theorem bitsVal_foldl_init (l : List Bool) :
    ∀ (a : Nat), l.foldl (fun a b => 2 * a + (if b then 1 else 0)) a
      = a * 2 ^ l.length + bitsVal l := by
  induction l with
  | nil => intro a; simp [bitsVal]
  | cons b t ih =>
    intro a
    simp only [List.foldl_cons, bitsVal]
    rw [ih (2 * a + (if b then 1 else 0)), ih (2 * 0 + (if b then 1 else 0))]
    simp only [List.length_cons]
    ring

theorem bitsVal_cons (b : Bool) (t : List Bool) :
    bitsVal (b :: t) = (if b then 1 else 0) * 2 ^ t.length + bitsVal t := by
  show List.foldl _ _ (b :: t) = _
  rw [List.foldl_cons, bitsVal_foldl_init]
  simp

theorem bitsVal_lt (l : List Bool) : bitsVal l < 2 ^ l.length := by
  induction l with
  | nil => simp [bitsVal]
  | cons b t ih =>
    rw [bitsVal_cons]
    simp only [List.length_cons, pow_succ]
    rcases Bool.dichotomy b with h | h <;> subst h <;> simp <;> omega

theorem natBits_mod (w : Nat) : ∀ (n : Nat), natBits w n = natBits w (n % 2 ^ w) := by
  induction w with
  | zero => intro n; rfl
  | succ w ih =>
    intro n
    simp only [natBits]
    congr 1
    · rw [Nat.testBit_mod_two_pow]
      simp
    · rw [ih n, ih (n % 2 ^ (w + 1))]
      rw [Nat.mod_mod_of_dvd n (by exact pow_dvd_pow 2 (by omega))]

theorem natBits_bitsVal : ∀ (l : List Bool), natBits l.length (bitsVal l) = l := by
  intro l
  induction l with
  | nil => rfl
  | cons b t ih =>
    simp only [List.length_cons, natBits, bitsVal_cons]
    congr 1
    · rw [Nat.testBit_to_div_mod]
      rw [Nat.add_comm, Nat.add_mul_div_right _ _ (Nat.two_pow_pos _),
        Nat.div_eq_of_lt (bitsVal_lt t), Nat.zero_add]
      rcases Bool.dichotomy b with h | h <;> subst h <;> simp
    · rw [natBits_mod, Nat.add_comm, Nat.add_mul_mod_self_right,
        Nat.mod_eq_of_lt (bitsVal_lt t), ih]

theorem padTo_length (n : Nat) (x : α) (l : List α) (h : l.length ≤ n) :
    (padTo n x l).length = n := by
  simp only [padTo, List.length_append, List.length_replicate]
  omega

theorem bitsVal_natBits (w : Nat) : ∀ (n : Nat), n < 2 ^ w → bitsVal (natBits w n) = n := by
  induction w with
  | zero =>
    intro n h
    interval_cases n
    rfl
  | succ w ih =>
    intro n h
    simp only [natBits]
    rw [bitsVal_cons, natBits_length, natBits_mod,
      ih (n % 2 ^ w) (Nat.mod_lt _ (Nat.two_pow_pos _))]
    have hd : n / 2 ^ w < 2 := by
      apply Nat.div_lt_of_lt_mul
      rw [pow_succ] at h
      omega
    have hv : (if n.testBit w then 1 else 0) = n / 2 ^ w := by
      rw [Nat.testBit_to_div_mod]
      have hcases : n / 2 ^ w = 0 ∨ n / 2 ^ w = 1 := by
        rcases Nat.lt_succ_iff_lt_or_eq.mp hd with hlt | heq
        · exact Or.inl (Nat.lt_one_iff.mp hlt)
        · exact Or.inr heq
      rcases hcases with h0 | h1
      · simp [h0]
      · simp [h1]
    rw [hv, Nat.mul_comm (n / 2 ^ w) (2 ^ w)]
    exact Nat.div_add_mod n (2 ^ w)

theorem chunks_flatMap_uniform (k : Nat) (f : α → List β)
    (hf : ∀ x, (f x).length = k + 1) :
    ∀ (L : List α), chunks k (L.flatMap f) = L.map f := by
  intro L
  induction L with
  | nil => simp [chunks, chunksGo]
  | cons x t ih =>
    simp only [List.flatMap_cons, List.map_cons]
    have hne : f x ++ t.flatMap f ≠ [] := by
      intro hcon
      have := congrArg List.length hcon
      simp [hf x] at this
    rw [chunks_cons_eq k _ hne, List.take_left' (hf x), List.drop_left' (hf x), ih]

theorem chunks_flatMap_pad (k : Nat) (x : α) :
    ∀ (l : List α), ∃ p, p ≤ k ∧
      (chunks k l).flatMap (padTo (k + 1) x) = l ++ List.replicate p x := by
  intro l
  generalize hn : l.length = n
  induction n using Nat.strong_induction_on generalizing l with
  | _ n ih =>
    cases l with
    | nil => exact ⟨0, by omega, by simp [chunks, chunksGo]⟩
    | cons y ys =>
      rw [chunks_cons_eq k _ (by simp)]
      subst hn
      by_cases hsm : ys.length + 1 ≤ k + 1
      · refine ⟨k + 1 - (ys.length + 1), by omega, ?_⟩
        rw [List.take_of_length_le (by simpa using hsm),
          List.drop_eq_nil_of_le (by simpa using hsm)]
        simp only [List.flatMap_cons, show chunks k ([] : List α) = [] from rfl,
          List.flatMap_nil, List.append_nil, padTo, List.length_cons]
      · obtain ⟨p, hp, hrec⟩ := ih ((y :: ys).drop (k + 1)).length (by simp; omega) _ rfl
        refine ⟨p, hp, ?_⟩
        simp only [List.flatMap_cons, hrec]
        have htk : ((y :: ys).take (k + 1)).length = k + 1 := by
          simp only [List.length_take, List.length_cons]
          omega
        rw [show padTo (k + 1) x ((y :: ys).take (k + 1)) = (y :: ys).take (k + 1) from by
          simp [padTo, htk]
          omega]
        rw [← List.append_assoc, List.take_append_drop]

theorem fromWords_toWords (bytes : List Nat) (hb : ∀ b ∈ bytes, b < 256) :
    fromWords (toWords bytes) = some bytes := by
  have hlen8 : (bytes.flatMap (natBits 8)).length = 8 * bytes.length :=
    length_flatMap_const _ 8 _ (fun x _ => natBits_length 8 x)
  have hw : (toWords bytes).flatMap (natBits 5)
      = (chunks 4 (bytes.flatMap (natBits 8))).flatMap (padTo 5 false) := by
    unfold toWords
    rw [List.flatMap_map, List.flatMap_map]
    apply flatMap_congr_mem
    intro ch hch
    have hle : ch.length ≤ 5 := chunks_mem_length 4 _ ch hch
    have hplen : (padTo 5 false ch).length = 5 := padTo_length 5 false ch hle
    calc natBits 5 (bitsVal (padTo 5 false ch))
        = natBits (padTo 5 false ch).length (bitsVal (padTo 5 false ch)) := by rw [hplen]
      _ = padTo 5 false ch := natBits_bitsVal _
  obtain ⟨p, hp, hpad⟩ := chunks_flatMap_pad 4 false (bytes.flatMap (natBits 8))
  simp only [fromWords, hw, hpad]
  have hlenT : ((bytes.flatMap (natBits 8)) ++ List.replicate p false).length
      = 8 * bytes.length + p := by simp [hlen8]
  rw [hlenT]
  have hdiv : 8 * ((8 * bytes.length + p) / 8) = 8 * bytes.length := by omega
  rw [hdiv, List.take_left' hlen8, List.drop_left' hlen8]
  rw [if_neg (by simp; omega)]
  rw [if_neg (by simp)]
  rw [chunks_flatMap_uniform 7 (natBits 8) (fun x => natBits_length 8 x) bytes]
  rw [List.map_map]
  congr 1
  conv_rhs => rw [← List.map_id bytes]
  apply List.map_congr_left
  intro b hbm
  exact bitsVal_natBits 8 b (by have := hb b hbm; omega)

/- Checksum correctness of the bech32 coder. -/

theorem polymodStep_lt (c : Nat) : polymodStep c < 2 ^ 30 := by
  unfold polymodStep
  have h1 : (c &&& 0x1ffffff) <<< 5 < 2 ^ 30 := by
    have hle : c &&& 0x1ffffff ≤ 0x1ffffff := Nat.and_le_right
    rw [Nat.shiftLeft_eq]
    calc (c &&& 0x1ffffff) * 2 ^ 5 ≤ 0x1ffffff * 2 ^ 5 := Nat.mul_le_mul_right _ hle
      _ < 2 ^ 30 := by norm_num
  refine Nat.xor_lt_two_pow (Nat.xor_lt_two_pow (Nat.xor_lt_two_pow (Nat.xor_lt_two_pow
    (Nat.xor_lt_two_pow h1 ?_) ?_) ?_) ?_) ?_
  all_goals split <;> norm_num

theorem xor_high_shiftRight (a m k : Nat) (h : m < 2 ^ k) :
    (a ^^^ m) >>> k = a >>> k := by
  apply Nat.eq_of_testBit_eq
  intro i
  simp only [Nat.testBit_shiftRight, Nat.testBit_xor]
  rw [Nat.testBit_lt_two_pow (lt_of_lt_of_le h (Nat.pow_le_pow_right (by omega) (by omega)))]
  simp

theorem xor_low_land (a m k : Nat) (h : m < 2 ^ k) :
    (a ^^^ m) &&& (2 ^ k - 1) = (a &&& (2 ^ k - 1)) ^^^ m := by
  apply Nat.eq_of_testBit_eq
  intro i
  simp only [Nat.testBit_and, Nat.testBit_xor, Nat.testBit_two_pow_sub_one]
  by_cases hi : i < k
  · simp [hi]
  · rw [Nat.testBit_lt_two_pow (lt_of_lt_of_le h (Nat.pow_le_pow_right (by omega) (by omega)))]
    simp [hi]

theorem shiftLeft_xor_distrib (a b n : Nat) : (a ^^^ b) <<< n = (a <<< n) ^^^ (b <<< n) := by
  apply Nat.eq_of_testBit_eq
  intro i
  simp only [Nat.testBit_shiftLeft, Nat.testBit_xor]
  by_cases hi : n ≤ i <;> simp [hi]

theorem xor_pull (x y a b c d e : Nat) :
    (((((x ^^^ y) ^^^ a) ^^^ b) ^^^ c) ^^^ d) ^^^ e
      = ((((((x ^^^ a) ^^^ b) ^^^ c) ^^^ d) ^^^ e) ^^^ y) := by
  apply Nat.eq_of_testBit_eq
  intro i
  simp only [Nat.testBit_xor]
  cases x.testBit i <;> cases y.testBit i <;> cases a.testBit i <;> cases b.testBit i <;>
    cases c.testBit i <;> cases d.testBit i <;> cases e.testBit i <;> rfl

theorem polymodStep_xor_low (c m : Nat) (h : m < 2 ^ 25) :
    polymodStep (c ^^^ m) = polymodStep c ^^^ (m <<< 5) := by
  unfold polymodStep
  rw [show (0x1ffffff : Nat) = 2 ^ 25 - 1 from by norm_num]
  rw [xor_high_shiftRight c m 25 h, xor_low_land c m 25 h, shiftLeft_xor_distrib]
  exact xor_pull _ _ _ _ _ _ _

theorem shiftLeft5_lt (m a : Nat) (h : m < 2 ^ a) : m <<< 5 < 2 ^ (a + 5) := by
  rw [Nat.shiftLeft_eq, pow_add]
  exact Nat.mul_lt_mul_of_lt_of_le h (by norm_num) (by norm_num)

theorem polyRun_six (M c0 c1 c2 c3 c4 c5 : Nat)
    (h0 : c0 < 32) (h1 : c1 < 32) (h2 : c2 < 32) (h3 : c3 < 32) (h4 : c4 < 32)
    (h5 : c5 < 32) :
    polyRun M [c0, c1, c2, c3, c4, c5] =
      polyRun M [0, 0, 0, 0, 0, 0] ^^^
        (((((c0 <<< 5) ^^^ c1) <<< 5 ^^^ c2) <<< 5 ^^^ c3) <<< 5 ^^^ c4) <<< 5 ^^^ c5 := by
  have e32 : (32 : Nat) = 2 ^ 5 := by norm_num
  have b0 : c0 < 2 ^ 5 := by omega
  have b2 : (c0 <<< 5) ^^^ c1 < 2 ^ 10 :=
    Nat.xor_lt_two_pow (shiftLeft5_lt c0 5 b0) (by omega)
  have b3 : ((c0 <<< 5) ^^^ c1) <<< 5 ^^^ c2 < 2 ^ 15 :=
    Nat.xor_lt_two_pow (shiftLeft5_lt _ 10 b2) (by omega)
  have b4 : (((c0 <<< 5) ^^^ c1) <<< 5 ^^^ c2) <<< 5 ^^^ c3 < 2 ^ 20 :=
    Nat.xor_lt_two_pow (shiftLeft5_lt _ 15 b3) (by omega)
  have b5 : ((((c0 <<< 5) ^^^ c1) <<< 5 ^^^ c2) <<< 5 ^^^ c3) <<< 5 ^^^ c4 < 2 ^ 25 :=
    Nat.xor_lt_two_pow (shiftLeft5_lt _ 20 b4) (by omega)
  simp only [polyRun, List.foldl_cons, List.foldl_nil, Nat.xor_zero]
  rw [polymodStep_xor_low (polymodStep M) c0 (by omega)]
  rw [Nat.xor_assoc]
  rw [polymodStep_xor_low _ _ (lt_of_lt_of_le b2 (by norm_num))]
  rw [Nat.xor_assoc]
  rw [polymodStep_xor_low _ _ (lt_of_lt_of_le b3 (by norm_num))]
  rw [Nat.xor_assoc]
  rw [polymodStep_xor_low _ _ (lt_of_lt_of_le b4 (by norm_num))]
  rw [Nat.xor_assoc]
  rw [polymodStep_xor_low _ _ b5]

theorem combine_step (y a : Nat) :
    (((y >>> 5) &&& (2 ^ a - 1)) <<< 5) ^^^ (y &&& (2 ^ 5 - 1)) = y &&& (2 ^ (a + 5) - 1) := by
  apply Nat.eq_of_testBit_eq
  intro i
  simp only [Nat.testBit_xor, Nat.testBit_shiftLeft, Nat.testBit_and,
    Nat.testBit_two_pow_sub_one, Nat.testBit_shiftRight]
  by_cases hi : 5 ≤ i
  · have hlt : ¬ i < 5 := by omega
    rw [show 5 + (i - 5) = i from by omega]
    by_cases ha : i - 5 < a
    · simp [hi, hlt, ha, show i < a + 5 from by omega]
    · simp [hi, hlt, ha, show ¬ i < a + 5 from by omega]
  · have hi5 : i < 5 := by omega
    simp [hi, hi5, show i < a + 5 from by omega]

theorem polyRun_zeros (M : Nat) :
    polyRun M [0, 0, 0, 0, 0, 0] =
      polymodStep (polymodStep (polymodStep (polymodStep (polymodStep (polymodStep M))))) := by
  simp [polyRun, List.foldl_cons, List.foldl_nil, Nat.xor_zero]

theorem polyRun_checksum (M mod : Nat) (hmod : mod = polyRun M [0, 0, 0, 0, 0, 0] ^^^ 1) :
    polyRun M [(mod >>> 25) &&& 31, (mod >>> 20) &&& 31, (mod >>> 15) &&& 31,
      (mod >>> 10) &&& 31, (mod >>> 5) &&& 31, mod &&& 31] = 1 := by
  have hmlt : mod < 2 ^ 30 := by
    rw [hmod, polyRun_zeros]
    exact Nat.xor_lt_two_pow (polymodStep_lt _) (by norm_num)
  have hb : ∀ x : Nat, x &&& 31 < 32 := fun x =>
    lt_of_le_of_lt Nat.and_le_right (by norm_num)
  rw [polyRun_six M _ _ _ _ _ _ (hb _) (hb _) (hb _) (hb _) (hb _) (hb _)]
  have e31 : (31 : Nat) = 2 ^ 5 - 1 := by norm_num
  have hK : ((((((mod >>> 25) &&& 31) <<< 5 ^^^ ((mod >>> 20) &&& 31)) <<< 5 ^^^
      ((mod >>> 15) &&& 31)) <<< 5 ^^^ ((mod >>> 10) &&& 31)) <<< 5 ^^^
      ((mod >>> 5) &&& 31)) <<< 5 ^^^ (mod &&& 31) = mod := by
    rw [e31]
    rw [show mod >>> 25 = (mod >>> 20) >>> 5 from by rw [← Nat.shiftRight_add]]
    rw [combine_step (mod >>> 20) 5]
    rw [show mod >>> 20 = (mod >>> 15) >>> 5 from by rw [← Nat.shiftRight_add]]
    rw [show (2 ^ 10 : Nat) - 1 = 2 ^ (5 + 5) - 1 from by norm_num]
    rw [combine_step (mod >>> 15) 10]
    rw [show mod >>> 15 = (mod >>> 10) >>> 5 from by rw [← Nat.shiftRight_add]]
    rw [show (2 ^ 15 : Nat) - 1 = 2 ^ (10 + 5) - 1 from by norm_num]
    rw [combine_step (mod >>> 10) 15]
    rw [show mod >>> 10 = (mod >>> 5) >>> 5 from by rw [← Nat.shiftRight_add]]
    rw [show (2 ^ 20 : Nat) - 1 = 2 ^ (15 + 5) - 1 from by norm_num]
    rw [combine_step (mod >>> 5) 20]
    rw [show (2 ^ (20 + 5) : Nat) - 1 = 2 ^ 25 - 1 from by norm_num]
    rw [combine_step mod 25]
    rw [show (2 ^ (25 + 5) : Nat) - 1 = 2 ^ 30 - 1 from by norm_num]
    exact Nat.and_pow_two_sub_one_of_lt_two_pow hmlt
  rw [Nat.xor_assoc, hK, hmod, ← Nat.xor_assoc, Nat.xor_self, Nat.zero_xor]

/- Decoding an encoded bech32 string recovers the prefix and words. -/

theorem charset_lower : ∀ w : Nat, w < 32 → lowerChar (CHARSET.getD w 'q') = CHARSET.getD w 'q' := by
  decide

theorem charset_idx : ∀ w : Nat, w < 32 → charsetIdx (CHARSET.getD w 'q') = some w := by
  decide

theorem charset_ne_one : ∀ w : Nat, w < 32 → ¬ CHARSET.getD w 'q' = '1' := by
  decide

theorem findIdx?_one_append (l r : List Char) :
    ∀ (i : Nat), (∀ c ∈ l, ¬ c = '1') →
    (l ++ '1' :: r).findIdx? (fun c => c = '1') i = some (i + l.length) := by
  induction l with
  | nil =>
    intro i _
    simp [List.findIdx?_cons]
  | cons c t ih =>
    intro i hl
    simp only [List.cons_append, List.findIdx?_cons]
    rw [if_neg (by simpa using hl c (by simp))]
    rw [ih (i + 1) (fun x hx => hl x (by simp [hx]))]
    simp only [List.length_cons]
    congr 1
    omega

theorem splitLastOne_append (p d : JStr) (hp : ∀ c ∈ p, ¬ c = '1') (hd : ∀ c ∈ d, ¬ c = '1') :
    splitLastOne (p ++ '1' :: d) = some (p, d) := by
  unfold splitLastOne
  have hrev : (p ++ '1' :: d).reverse = d.reverse ++ '1' :: p.reverse := by
    simp
  rw [hrev, findIdx?_one_append d.reverse p.reverse 0 (fun c hc => hd c (by simpa using hc))]
  simp only [Nat.zero_add, List.length_reverse, List.length_append, List.length_cons]
  have h1 : p.length + (d.length + 1) - 1 - d.length = p.length := by omega
  have h2 : p.length + (d.length + 1) - d.length = p.length + 1 := by omega
  rw [h1, h2, List.take_left' rfl]
  rw [show p ++ '1' :: d = (p ++ ['1']) ++ d from by simp]
  rw [List.drop_left' (by simp)]

theorem wordVals_map_charset : ∀ (ws : List Nat), (∀ w ∈ ws, w < 32) →
    wordVals (ws.map (fun x => CHARSET.getD x 'q')) = some ws := by
  intro ws
  induction ws with
  | nil => intro _; rfl
  | cons w t ih =>
    intro h
    simp only [List.map_cons, wordVals]
    rw [charset_idx w (h w (by simp)), ih (fun x hx => h x (by simp [hx]))]

theorem wordVals_append (a b : JStr) (va vb : List Nat)
    (ha : wordVals a = some va) (hb : wordVals b = some vb) :
    wordVals (a ++ b) = some (va ++ vb) := by
  induction a generalizing va with
  | nil =>
    simp only [wordVals] at ha
    cases ha
    simpa using hb
  | cons c t ih =>
    simp only [wordVals, List.cons_append] at ha ⊢
    cases hidx : charsetIdx c with
    | none => rw [hidx] at ha; simp at ha
    | some v =>
      rw [hidx] at ha
      cases ht : wordVals t with
      | none => rw [ht] at ha; simp at ha
      | some vt =>
        rw [ht] at ha
        simp only [Option.some.injEq] at ha
        simp only [List.append_eq]
        rw [ih vt ht]
        simp [← ha]

/-- Decoding an encoded bech32 string recovers the prefix and the data
words: the checksum created by the encoder verifies and the six checksum
words are dropped. -/
theorem bech32_decode_encode (hrp : JStr) (words : List Nat) (out : JStr)
    (hne : hrp ≠ [])
    (hlow : jsLower hrp = hrp)
    (hone : ∀ c ∈ hrp, ¬ c = '1')
    (hchars : hrp.any (fun c => c.toNat < 33 ∨ 126 < c.toNat) = false)
    (hlen : hrp.length + 7 + words.length ≤ 90)
    (hw : ∀ w ∈ words, w < 32)
    (henc : bech32Encode hrp words = .ok out) :
    bech32Decode out = some (hrp, words) := by
  obtain ⟨c0, hpfx⟩ : ∃ c0, prefixChk hrp = some c0 := by
    unfold prefixChk
    rw [if_neg (by simp only [hchars]; exact Bool.false_ne_true)]
    exact ⟨_, rfl⟩
  have hwany : words.any (fun x => 32 ≤ x) = false := by
    rw [List.any_eq_false]
    intro w hwm
    simpa using Nat.not_le.mpr (hw w hwm)
  have hlt90 : (90 < hrp.length + 7 + words.length) = False := by
    simp only [eq_iff_iff, iff_false]
    omega
  simp only [bech32Encode, hlt90, if_false, hlow, hpfx, hwany, Bool.false_eq_true,
    reduceIte, Except.ok.injEq] at henc
  set M := List.foldl (fun chk x => polymodStep chk ^^^ x) c0 words with hM
  set chk2 := polymodStep (polymodStep (polymodStep (polymodStep (polymodStep
    (polymodStep M))))) ^^^ 1 with hchk2
  set csVals : List Nat := [(chk2 >>> 25) &&& 31, (chk2 >>> 20) &&& 31, (chk2 >>> 15) &&& 31,
    (chk2 >>> 10) &&& 31, (chk2 >>> 5) &&& 31, chk2 &&& 31] with hcsVals
  have hcsmap : (List.range 6).map (fun i => CHARSET.getD ((chk2 >>> ((5 - i) * 5)) &&& 31) 'q')
      = csVals.map (fun x => CHARSET.getD x 'q') := rfl
  rw [hcsmap] at henc
  set D := words.map (fun x => CHARSET.getD x 'q') ++ csVals.map (fun x => CHARSET.getD x 'q')
    with hD
  subst henc
  have hcsb : ∀ w ∈ csVals, w < 32 := by
    intro w hwm
    rw [hcsVals] at hwm
    simp only [List.mem_cons, List.not_mem_nil, or_false] at hwm
    rcases hwm with h | h | h | h | h | h <;>
      exact h ▸ lt_of_le_of_lt Nat.and_le_right (by norm_num)
  have hdmem : ∀ c ∈ D, ∃ w, w < 32 ∧ c = CHARSET.getD w 'q' := by
    intro c hc
    rw [hD] at hc
    rcases List.mem_append.mp hc with h | h
    · obtain ⟨w, hwm, rfl⟩ := List.mem_map.mp h
      exact ⟨w, hw w hwm, rfl⟩
    · obtain ⟨w, hwm, rfl⟩ := List.mem_map.mp h
      exact ⟨w, hcsb w hwm, rfl⟩
  have hDone : ∀ c ∈ D, ¬ c = '1' := by
    intro c hc
    obtain ⟨w, hw32, rfl⟩ := hdmem c hc
    exact charset_ne_one w hw32
  have hDlow : ∀ c ∈ D, lowerChar c = c := by
    intro c hc
    obtain ⟨w, hw32, rfl⟩ := hdmem c hc
    exact charset_lower w hw32
  have hDlen : D.length = words.length + 6 := by
    rw [hD]
    simp [hcsVals]
  have hlen1 : 1 ≤ hrp.length := List.length_pos.mpr hne
  have houtlen : (hrp ++ '1' :: D).length = hrp.length + 1 + D.length := by
    simp
    omega
  have hlowout : jsLower (hrp ++ '1' :: D) = hrp ++ '1' :: D := by
    simp only [jsLower, List.map_append, List.map_cons]
    rw [show List.map lowerChar hrp = jsLower hrp from rfl, hlow]
    rw [show lowerChar '1' = '1' from by decide]
    rw [List.map_congr_left hDlow]
    simp
  have hlen8 : ((hrp ++ '1' :: D).length < 8) = False := by
    simp only [eq_iff_iff, iff_false]
    rw [houtlen]
    omega
  have hlen90 : (90 < (hrp ++ '1' :: D).length) = False := by
    simp only [eq_iff_iff, iff_false]
    rw [houtlen]
    omega
  have hmixed : (hrp ++ '1' :: D ≠ jsLower (hrp ++ '1' :: D)
      ∧ hrp ++ '1' :: D ≠ jsUpper (hrp ++ '1' :: D)) = False := by
    simp [hlowout]
  have hsplit : splitLastOne (jsLower (hrp ++ '1' :: D)) = some (hrp, D) := by
    rw [hlowout]
    exact splitLastOne_append hrp D hone hDone
  have hrpE : hrp.isEmpty = false := by
    simpa using hne
  have hD6 : (D.length < 6) = False := by
    simp only [eq_iff_iff, iff_false]
    omega
  have hwv : wordVals D = some (words ++ csVals) := by
    rw [hD]
    exact wordVals_append _ _ _ _ (wordVals_map_charset words hw)
      (wordVals_map_charset csVals hcsb)
  have hfold : (words ++ csVals).foldl (fun chk v => polymodStep chk ^^^ v) c0 = 1 := by
    rw [List.foldl_append]
    show polyRun (polyRun c0 words) csVals = 1
    rw [hcsVals]
    exact polyRun_checksum M chk2 (by rw [hchk2, polyRun_zeros])
  have htake : (words ++ csVals).take ((words ++ csVals).length - 6) = words := by
    have hl : (words ++ csVals).length - 6 = words.length := by
      simp [hcsVals]
    rw [hl, List.take_left]
  simp only [bech32Decode, hlen8, hlen90, hmixed, if_false, hsplit, hrpE, hD6, hpfx, hwv,
    hfold, reduceIte, if_true, htake]
  simp

/- Shape lemmas for the address codec. -/

theorem toWords_lt (bytes : List Nat) : ∀ w ∈ toWords bytes, w < 32 := by
  intro w hw
  unfold toWords at hw
  obtain ⟨ch2, hch2, rfl⟩ := List.mem_map.mp hw
  obtain ⟨ch, hch, rfl⟩ := List.mem_map.mp hch2
  have hlt := bitsVal_lt (padTo 5 false ch)
  rw [padTo_length 5 false ch (chunks_mem_length 4 _ ch hch)] at hlt
  exact hlt

theorem toWords_length (bytes : List Nat) :
    (toWords bytes).length = (8 * bytes.length + 4) / 5 := by
  unfold toWords
  simp only [List.length_map]
  rw [chunks_length 4, length_flatMap_const _ 8 _ (fun x _ => natBits_length 8 x)]

theorem stake1_prefix_stake (r : JStr) :
    "stake1".toList.isPrefixOf ("stake".toList ++ '1' :: r) = true := by
  rw [List.isPrefixOf_iff_prefix]
  exact ⟨r, rfl⟩

theorem addr1_prefix_addr (r : JStr) :
    "addr1".toList.isPrefixOf ("addr".toList ++ '1' :: r) = true := by
  rw [List.isPrefixOf_iff_prefix]
  exact ⟨r, rfl⟩

theorem stake1_not_prefix_stake_test (r : JStr) :
    "stake1".toList.isPrefixOf ("stake_test".toList ++ '1' :: r) = false := by
  show (['s','t','a','k','e','1'] : JStr).isPrefixOf
    (['s','t','a','k','e','_','t','e','s','t'] ++ '1' :: r) = false
  simp [List.isPrefixOf, List.cons_append]

theorem addr1_not_prefix_stake_test (r : JStr) :
    "addr1".toList.isPrefixOf ("stake_test".toList ++ '1' :: r) = false := by
  show (['a','d','d','r','1'] : JStr).isPrefixOf
    (['s','t','a','k','e','_','t','e','s','t'] ++ '1' :: r) = false
  simp [List.isPrefixOf, List.cons_append]

theorem stake1_not_prefix_addr_test (r : JStr) :
    "stake1".toList.isPrefixOf ("addr_test".toList ++ '1' :: r) = false := by
  show (['s','t','a','k','e','1'] : JStr).isPrefixOf
    (['a','d','d','r','_','t','e','s','t'] ++ '1' :: r) = false
  simp [List.isPrefixOf, List.cons_append]

theorem addr1_not_prefix_addr_test (r : JStr) :
    "addr1".toList.isPrefixOf ("addr_test".toList ++ '1' :: r) = false := by
  show (['a','d','d','r','1'] : JStr).isPrefixOf
    (['a','d','d','r','_','t','e','s','t'] ++ '1' :: r) = false
  simp [List.isPrefixOf, List.cons_append]

theorem stake1_not_prefix_addr (r : JStr) :
    "stake1".toList.isPrefixOf ("addr".toList ++ '1' :: r) = false := by
  show (['s','t','a','k','e','1'] : JStr).isPrefixOf
    (['a','d','d','r'] ++ '1' :: r) = false
  simp [List.isPrefixOf, List.cons_append]

/-- Normalizing a canonical stake1 string returns it unchanged. -/
theorem toStakeAddress_stake1 (nid : Nat) (resolve : JStr → Option JStr) (y : JStr)
    (h : "stake1".toList.isPrefixOf y = true) :
    toStakeAddress nid resolve y = .ok (some y) := by
  have hne : y.isEmpty = false := by
    cases y with
    | nil => simp [List.isPrefixOf] at h
    | cons a t => rfl
  unfold toStakeAddress
  rw [if_neg (by simp [hne]), if_pos h]

/-- The encoder succeeds whenever the length limit, the prefix character
range and the word range are respected, and its output is the lowered
prefix, the separator and data. -/
theorem bech32Encode_ok (hrp : JStr) (words : List Nat)
    (hlen : hrp.length + 7 + words.length ≤ 90)
    (hchars : (jsLower hrp).any (fun c => c.toNat < 33 ∨ 126 < c.toNat) = false)
    (hw : ∀ w ∈ words, w < 32) :
    ∃ rest, bech32Encode hrp words = .ok (jsLower hrp ++ '1' :: rest) := by
  obtain ⟨c0, hpfx⟩ : ∃ c0, prefixChk (jsLower hrp) = some c0 := by
    unfold prefixChk
    rw [if_neg (by simp only [hchars]; exact Bool.false_ne_true)]
    exact ⟨_, rfl⟩
  have hwany : words.any (fun x => 32 ≤ x) = false := by
    rw [List.any_eq_false]
    intro w hwm
    simpa using Nat.not_le.mpr (hw w hwm)
  have hlt90 : (90 < hrp.length + 7 + words.length) = False := by
    simp only [eq_iff_iff, iff_false]
    omega
  refine ⟨words.map (fun x => CHARSET.getD x 'q') ++
    (List.range 6).map (fun i => CHARSET.getD
      ((((polymodStep (polymodStep (polymodStep (polymodStep (polymodStep (polymodStep
        (words.foldl (fun chk x => polymodStep chk ^^^ x) c0))))))) ^^^ 1) >>>
          ((5 - i) * 5)) &&& 31) 'q'), ?_⟩
  simp only [bech32Encode, hlt90, if_false, hpfx, hwany, Bool.false_eq_true, reduceIte]

/-- C5 counterexample: a 100-character hex input (50 bytes) makes
toStakeAddress raise: the re-encoded bech32 string would exceed the
npm bech32 default length limit of 90 characters, so the encoder throws
Exceeds length limit instead of the function returning null. -/
theorem c5_counterexample :
    toStakeAddress 1 noResolve ('0' :: '1' :: List.replicate 98 '0') =
      .error "Exceeds length limit".toList := rfl

/-- C5 amended: toStakeAddress terminates without throwing for every
input that is not hex, and for every hex input of at most 45 decoded
bytes; longer hex inputs can make the underlying bech32 encoder throw
its length-limit exception. -/
theorem c5_amended_no_throw_bounded (nid : Nat) (resolve : JStr → Option JStr) (s : JStr)
    (hb : isHexStr s = true → (hexPairs s).length ≤ 45) :
    ∃ r, toStakeAddress nid resolve s = .ok r := by
  unfold toStakeAddress
  by_cases h0 : s.isEmpty
  · rw [if_pos h0]
    exact ⟨none, rfl⟩
  rw [if_neg h0]
  by_cases h1 : "stake1".toList.isPrefixOf s
  · rw [if_pos h1]
    exact ⟨_, rfl⟩
  rw [if_neg h1]
  by_cases h2 : "addr1".toList.isPrefixOf s
  · rw [if_pos h2]
    exact ⟨_, rfl⟩
  rw [if_neg h2]
  by_cases h3 : isHexStr s = true
  case neg =>
    rw [if_pos (by simpa using h3)]
    exact ⟨none, rfl⟩
  rw [if_neg (by simpa using h3)]
  have hble := hb h3
  by_cases h28 : (hexPairs s).length = 28
  · rw [if_pos h28]
    have hwlen : (toWords (((14 : Nat) <<< 4 ||| (nid &&& 0x0f)) :: hexPairs s)).length = 47 := by
      rw [toWords_length]
      simp [h28]
    by_cases hn : nid = 1
    · rw [if_pos hn]
      obtain ⟨rest, henc⟩ := bech32Encode_ok "stake".toList _
        (by rw [hwlen]; decide) (by decide) (toWords_lt _)
      simp only [henc]
      exact ⟨_, rfl⟩
    · rw [if_neg hn]
      obtain ⟨rest, henc⟩ := bech32Encode_ok "stake_test".toList _
        (by rw [hwlen]; decide) (by decide) (toWords_lt _)
      simp only [henc]
      exact ⟨_, rfl⟩
  rw [if_neg h28]
  by_cases h29 : 29 ≤ (hexPairs s).length
  · rw [if_pos h29]
    have hwlen : (toWords (hexPairs s)).length ≤ 72 := by
      rw [toWords_length]
      calc (8 * (hexPairs s).length + 4) / 5 ≤ (8 * 45 + 4) / 5 :=
        Nat.div_le_div_right (by omega)
        _ = 72 := by norm_num
    have hgen : ∀ (p : JStr), p.length ≤ 10 →
        ((jsLower p).any (fun c => c.toNat < 33 ∨ 126 < c.toNat) = false) →
        ∃ r, (match bech32Encode p (toWords (hexPairs s)) with
          | .error e => (.error e : Except JStr (Option JStr))
          | .ok bech =>
            if "stake1".toList.isPrefixOf bech then .ok (some bech)
            else if "addr1".toList.isPrefixOf bech then .ok (resolve bech)
            else .ok none) = .ok r := by
      intro p hplen hpchars
      obtain ⟨rest, henc⟩ := bech32Encode_ok p (toWords (hexPairs s)) (by omega) hpchars
        (toWords_lt _)
      simp only [henc]
      by_cases hc1 : "stake1".toList.isPrefixOf (jsLower p ++ '1' :: rest)
      · rw [if_pos hc1]
        exact ⟨_, rfl⟩
      rw [if_neg hc1]
      by_cases hc2 : "addr1".toList.isPrefixOf (jsLower p ++ '1' :: rest)
      · rw [if_pos hc2]
        exact ⟨_, rfl⟩
      rw [if_neg hc2]
      exact ⟨none, rfl⟩
    refine hgen (if (hexPairs s).headD 0 >>> 4 = 14
        then (if (hexPairs s).headD 0 &&& 0x0f = 1 then "stake".toList else "stake_test".toList)
        else (if (hexPairs s).headD 0 &&& 0x0f = 1 then "addr".toList else "addr_test".toList))
      ?_ ?_
    · split <;> split <;> decide
    · split <;> split <;> decide
  · rw [if_neg h29]
    exact ⟨none, rfl⟩

/-- C5 witness: the amended no-throw bound at concrete inputs. -/
theorem c5_witness :
    (isHexStr "not-hex!".toList = true → (hexPairs "not-hex!".toList).length ≤ 45) ∧
    (∃ r, toStakeAddress 0 noResolve "not-hex!".toList = .ok r) ∧
    (∃ r, toStakeAddress 1 noResolve (List.replicate 56 '0') = .ok r) :=
  ⟨by decide,
   c5_amended_no_throw_bounded 0 noResolve "not-hex!".toList (by decide),
   c5_amended_no_throw_bounded 1 noResolve (List.replicate 56 '0') (by decide)⟩

theorem isHexStr_ne_empty (s : JStr) (h : isHexStr s = true) : s.isEmpty = false := by
  cases s with
  | nil => exact absurd h (by decide)
  | cons a t => rfl

theorem hex_no_stake1 (s : JStr) (h : isHexStr s = true) :
    "stake1".toList.isPrefixOf s = false := by
  have hall : s.all isHexDigit = true := by
    simp only [isHexStr, decide_eq_true_eq] at h
    exact h.2
  rw [List.all_eq_true] at hall
  by_contra hc
  rw [Bool.not_eq_false] at hc
  have hmem : 's' ∈ s := (List.isPrefixOf_iff_prefix.mp hc).subset (by decide)
  exact absurd (hall 's' hmem) (by decide)

theorem hex_no_addr1 (s : JStr) (h : isHexStr s = true) :
    "addr1".toList.isPrefixOf s = false := by
  have hall : s.all isHexDigit = true := by
    simp only [isHexStr, decide_eq_true_eq] at h
    exact h.2
  rw [List.all_eq_true] at hall
  by_contra hc
  rw [Bool.not_eq_false] at hc
  have hmem : 'r' ∈ s := (List.isPrefixOf_iff_prefix.mp hc).subset (by decide)
  exact absurd (hall 'r' hmem) (by decide)

/-- C9 counterexample: the hex encoding of a 57-byte testnet payment
address (114 hex zeros) does not fall through to null: the re-encoding
with the addr_test prefix exceeds the bech32 90-character limit and the
encoder throws. -/
theorem c9_counterexample :
    toStakeAddress 0 noResolve (List.replicate 114 '0') =
      .error "Exceeds length limit".toList := rfl

/-- C9 amended: for every hex input decoding to between 29 and 45 bytes
whose first byte's low nibble (the network id) is 0, toStakeAddress
returns null: the re-encoded bech32 string carries a stake_test or
addr_test prefix, matching neither recognized prefix stake1 nor addr1,
so the function falls through to the null return; hex inputs long enough
to trip the encoder's 90-character limit throw instead. -/
theorem c9_amended_testnet_null (nid : Nat) (resolve : JStr → Option JStr) (s : JStr)
    (hhex : isHexStr s = true)
    (h29 : 29 ≤ (hexPairs s).length)
    (h45 : (hexPairs s).length ≤ 45)
    (hnet : (hexPairs s).headD 0 &&& 0x0f = 0) :
    toStakeAddress nid resolve s = .ok none := by
  unfold toStakeAddress
  rw [if_neg (by simp [isHexStr_ne_empty s hhex]),
      if_neg (by simp only [hex_no_stake1 s hhex]; exact Bool.false_ne_true),
      if_neg (by simp only [hex_no_addr1 s hhex]; exact Bool.false_ne_true),
      if_neg (by simpa using hhex),
      if_neg (by omega), if_pos h29]
  have hwlen : (toWords (hexPairs s)).length ≤ 72 := by
    rw [toWords_length]
    calc (8 * (hexPairs s).length + 4) / 5 ≤ (8 * 45 + 4) / 5 :=
      Nat.div_le_div_right (by omega)
      _ = 72 := by norm_num
  have key : ∀ (p : JStr), p = "stake_test".toList ∨ p = "addr_test".toList →
      (match bech32Encode p (toWords (hexPairs s)) with
        | .error e => (.error e : Except JStr (Option JStr))
        | .ok bech =>
          if "stake1".toList.isPrefixOf bech then .ok (some bech)
          else if "addr1".toList.isPrefixOf bech then .ok (resolve bech)
          else .ok none) = .ok none := by
    intro p hp
    rcases hp with rfl | rfl
    · obtain ⟨rest, henc⟩ := bech32Encode_ok "stake_test".toList (toWords (hexPairs s))
        (by have h10 : ("stake_test".toList : List Char).length = 10 := by decide
            omega)
        (by decide) (toWords_lt _)
      simp only [henc]
      have hl : jsLower "stake_test".toList = "stake_test".toList := by decide
      rw [hl, if_neg (by simp [stake1_not_prefix_stake_test]),
        if_neg (by simp [addr1_not_prefix_stake_test])]
    · obtain ⟨rest, henc⟩ := bech32Encode_ok "addr_test".toList (toWords (hexPairs s))
        (by have h9 : ("addr_test".toList : List Char).length = 9 := by decide
            omega)
        (by decide) (toWords_lt _)
      simp only [henc]
      have hl : jsLower "addr_test".toList = "addr_test".toList := by decide
      rw [hl, if_neg (by simp [stake1_not_prefix_addr_test]),
        if_neg (by simp [addr1_not_prefix_addr_test])]
  refine key (if (hexPairs s).headD 0 >>> 4 = 14
      then (if (hexPairs s).headD 0 &&& 0x0f = 1 then "stake".toList else "stake_test".toList)
      else (if (hexPairs s).headD 0 &&& 0x0f = 1 then "addr".toList else "addr_test".toList)) ?_
  rw [hnet]
  by_cases hty : (hexPairs s).headD 0 >>> 4 = 14
  · rw [if_pos hty, if_neg (by decide)]
    exact Or.inl rfl
  · rw [if_neg hty, if_neg (by decide)]
    exact Or.inr rfl

/-- C9 witness: the amended testnet-null theorem at a concrete 29-byte
testnet reward-address hex input. -/
theorem c9_witness :
    isHexStr ('e' :: List.replicate 57 '0') = true ∧
    29 ≤ (hexPairs ('e' :: List.replicate 57 '0')).length ∧
    (hexPairs ('e' :: List.replicate 57 '0')).length ≤ 45 ∧
    (hexPairs ('e' :: List.replicate 57 '0')).headD 0 &&& 0x0f = 0 ∧
    toStakeAddress 0 noResolve ('e' :: List.replicate 57 '0') = .ok none :=
  ⟨by decide, by decide, by decide, by decide,
   c9_amended_testnet_null 0 noResolve ('e' :: List.replicate 57 '0')
     (by decide) (by decide) (by decide) (by decide)⟩

/-- C4 counterexample: on the test network (networkId 0), normalizing a
28-byte hex stake-key hash yields a stake_test1 bech32 string, but
normalizing that output returns null (it matches neither recognized
prefix and is not hex), so normalize(normalize(x)) differs from
normalize(x) and idempotence fails. -/
theorem c4_counterexample :
    toStakeAddress 0 noResolve (List.replicate 56 '0') =
      .ok (some "stake_test1uqqqqqqqqqqqqqqqqqqqqqqqqqqqqqqqqqqqqqqqqqqqqqqdd4srp".toList) ∧
    toStakeAddress 0 noResolve
      "stake_test1uqqqqqqqqqqqqqqqqqqqqqqqqqqqqqqqqqqqqqqqqqqqqqqdd4srp".toList =
      .ok none :=
  ⟨rfl, rfl⟩

/-- C4 amended: normalization is idempotent on mainnet (networkId 1)
when every address the resolver returns is a stake1 string: if
toStakeAddress 1 resolve x returns some y, then toStakeAddress 1
resolve y returns the same y; on the test network idempotence fails
because successful outputs carry the stake_test prefix, which the
function does not recognize on re-entry. -/
theorem c4_amended_mainnet_idempotent (resolve : JStr → Option JStr) (x y : JStr)
    (hres : ∀ a r, resolve a = some r → "stake1".toList.isPrefixOf r = true)
    (hx : toStakeAddress 1 resolve x = .ok (some y)) :
    toStakeAddress 1 resolve y = .ok (some y) := by
  unfold toStakeAddress at hx
  by_cases h0 : x.isEmpty = true
  · rw [if_pos h0] at hx
    exact Except.noConfusion hx fun h => Option.noConfusion h
  rw [if_neg h0] at hx
  by_cases h1 : "stake1".toList.isPrefixOf x = true
  · rw [if_pos h1] at hx
    simp only [Except.ok.injEq, Option.some.injEq] at hx
    subst hx
    exact toStakeAddress_stake1 1 resolve x h1
  rw [if_neg h1] at hx
  by_cases h2 : "addr1".toList.isPrefixOf x = true
  · rw [if_pos h2] at hx
    simp only [Except.ok.injEq] at hx
    exact toStakeAddress_stake1 1 resolve y (hres x y hx)
  rw [if_neg h2] at hx
  by_cases h3 : isHexStr x = true
  case neg =>
    rw [if_pos (by simpa using h3)] at hx
    exact Except.noConfusion hx fun h => Option.noConfusion h
  rw [if_neg (by simpa using h3)] at hx
  by_cases h28 : (hexPairs x).length = 28
  · rw [if_pos h28, if_pos rfl] at hx
    have hwlen : (toWords (((14 : Nat) <<< 4 ||| (1 &&& 0x0f)) :: hexPairs x)).length = 47 := by
      rw [toWords_length]
      simp [h28]
    obtain ⟨rest, henc⟩ := bech32Encode_ok "stake".toList
      (toWords (((14 : Nat) <<< 4 ||| (1 &&& 0x0f)) :: hexPairs x))
      (by rw [hwlen]; decide) (by decide) (toWords_lt _)
    simp only [henc] at hx
    simp only [Except.ok.injEq, Option.some.injEq] at hx
    subst hx
    have hl : jsLower "stake".toList = "stake".toList := by decide
    exact toStakeAddress_stake1 1 resolve _ (by rw [hl]; exact stake1_prefix_stake rest)
  rw [if_neg h28] at hx
  by_cases h29 : 29 ≤ (hexPairs x).length
  case neg =>
    rw [if_neg h29] at hx
    exact Except.noConfusion hx fun h => Option.noConfusion h
  rw [if_pos h29] at hx
  cases henc : bech32Encode (if (hexPairs x).headD 0 >>> 4 = 14
      then (if (hexPairs x).headD 0 &&& 0x0f = 1 then "stake".toList else "stake_test".toList)
      else (if (hexPairs x).headD 0 &&& 0x0f = 1 then "addr".toList else "addr_test".toList))
      (toWords (hexPairs x)) with
  | error e =>
    simp only [henc] at hx
    exact Except.noConfusion hx
  | ok bech =>
    simp only [henc] at hx
    by_cases hc1 : "stake1".toList.isPrefixOf bech = true
    · rw [if_pos hc1] at hx
      simp only [Except.ok.injEq, Option.some.injEq] at hx
      subst hx
      exact toStakeAddress_stake1 1 resolve bech hc1
    rw [if_neg hc1] at hx
    by_cases hc2 : "addr1".toList.isPrefixOf bech = true
    · rw [if_pos hc2] at hx
      simp only [Except.ok.injEq] at hx
      exact toStakeAddress_stake1 1 resolve y (hres bech y hx)
    rw [if_neg hc2] at hx
    exact Except.noConfusion hx fun h => Option.noConfusion h

/-- C4 witness: mainnet idempotence at a concrete 28-byte hex input. -/
theorem c4_witness :
    (∀ a r, noResolve a = some r → "stake1".toList.isPrefixOf r = true) ∧
    toStakeAddress 1 noResolve (List.replicate 56 '0') =
      .ok (some "stake1uyqqqqqqqqqqqqqqqqqqqqqqqqqqqqqqqqqqqqqqqqqqqqq28lj8u".toList) ∧
    toStakeAddress 1 noResolve
      "stake1uyqqqqqqqqqqqqqqqqqqqqqqqqqqqqqqqqqqqqqqqqqqqqq28lj8u".toList =
      .ok (some "stake1uyqqqqqqqqqqqqqqqqqqqqqqqqqqqqqqqqqqqqqqqqqqqqq28lj8u".toList) :=
  ⟨fun a r h => Option.noConfusion h, rfl,
   c4_amended_mainnet_idempotent noResolve (List.replicate 56 '0')
     "stake1uyqqqqqqqqqqqqqqqqqqqqqqqqqqqqqqqqqqqqqqqqqqqqq28lj8u".toList
     (fun a r h => Option.noConfusion h) rfl⟩

theorem hexVal_lt (c : Char) : hexVal c < 16 := by
  have e0 : '0'.toNat = 48 := rfl
  have e9 : '9'.toNat = 57 := rfl
  have ea : 'a'.toNat = 97 := rfl
  have ef : 'f'.toNat = 102 := rfl
  have eA : 'A'.toNat = 65 := rfl
  have eF : 'F'.toNat = 70 := rfl
  unfold hexVal
  split
  · next h =>
    have h3 : c.toNat ≤ '9'.toNat := h.2
    omega
  split
  · next h =>
    have h3 : c.toNat ≤ 'f'.toNat := h.2
    have h4 : 'a'.toNat ≤ c.toNat := h.1
    omega
  split
  · next h =>
    have h3 : c.toNat ≤ 'F'.toNat := h.2
    have h4 : 'A'.toNat ≤ c.toNat := h.1
    omega
  · omega

theorem hexPairs_lt (s : JStr) : ∀ b ∈ hexPairs s, b < 256 := by
  induction s using hexPairs.induct with
  | case1 a b rest ih =>
    intro x hx
    rw [hexPairs] at hx
    rcases hx with _ | _
    · have := hexVal_lt a
      have := hexVal_lt b
      omega
    · exact ih x (by assumption)
  | case2 s h =>
    intro x hx
    cases s with
    | nil => simp [hexPairs] at hx
    | cons a t =>
      cases t with
      | nil => simp [hexPairs] at hx
      | cons b rest => exact absurd rfl (h a b rest)

/-- C6: for every 28-byte hex input, toStakeAddress returns, for every
resolver (hence without any network call), a bech32 string whose
decoding yields the prefix stake on mainnet (networkId 1) and
stake_test otherwise together with the words of the 29-byte payload: a
header byte (14 <<< 4) ||| networkId followed by the original 28 bytes,
which the word-to-byte conversion recovers exactly. -/
theorem c6_hex28_roundtrip (nid : Nat) (s : JStr)
    (hn : nid < 16) (hhex : isHexStr s = true) (h28 : (hexPairs s).length = 28) :
    ∃ out,
      (∀ resolve, toStakeAddress nid resolve s = .ok (some out)) ∧
      bech32Decode out =
        some ((if nid = 1 then "stake".toList else "stake_test".toList),
          toWords ((((14 : Nat) <<< 4) ||| nid) :: hexPairs s)) ∧
      fromWords (toWords ((((14 : Nat) <<< 4) ||| nid) :: hexPairs s)) =
        some ((((14 : Nat) <<< 4) ||| nid) :: hexPairs s) ∧
      ((((14 : Nat) <<< 4) ||| nid) :: hexPairs s).length = 29 := by
  have hbytes : ∀ b ∈ (((14 : Nat) <<< 4) ||| nid) :: hexPairs s, b < 256 := by
    intro b hb
    rcases List.mem_cons.mp hb with rfl | hb
    · have h8 : nid < 2 ^ 8 := by omega
      have h14 : (14 : Nat) <<< 4 < 2 ^ 8 := by decide
      exact Nat.or_lt_two_pow h14 h8
    · exact hexPairs_lt s b hb
  have hwlen : (toWords ((((14 : Nat) <<< 4) ||| nid) :: hexPairs s)).length = 47 := by
    rw [toWords_length]
    simp [h28]
  by_cases hn1 : nid = 1
  · subst hn1
    obtain ⟨rest, henc⟩ := bech32Encode_ok "stake".toList
      (toWords ((((14 : Nat) <<< 4) ||| 1) :: hexPairs s))
      (by rw [hwlen]; decide) (by decide) (toWords_lt _)
    refine ⟨jsLower "stake".toList ++ '1' :: rest, ?_, ?_, ?_, ?_⟩
    · intro resolve
      unfold toStakeAddress
      rw [if_neg (by simp [isHexStr_ne_empty s hhex]),
          if_neg (by simp only [hex_no_stake1 s hhex]; exact Bool.false_ne_true),
          if_neg (by simp only [hex_no_addr1 s hhex]; exact Bool.false_ne_true),
          if_neg (by simpa using hhex), if_pos h28, if_pos rfl,
          show (1 : Nat) &&& 0x0f = 1 from by decide]
      simp only [henc]
    · rw [if_pos rfl]
      exact bech32_decode_encode "stake".toList _ _ (by decide) (by decide) (by decide)
        (by decide) (by rw [hwlen]; decide) (toWords_lt _) henc
    · exact fromWords_toWords _ hbytes
    · simp [h28]
  · obtain ⟨rest, henc⟩ := bech32Encode_ok "stake_test".toList
      (toWords ((((14 : Nat) <<< 4) ||| nid) :: hexPairs s))
      (by rw [hwlen]; decide) (by decide) (toWords_lt _)
    have hand : nid &&& 0x0f = nid := by
      have h4 : nid < 2 ^ 4 := by omega
      simpa using Nat.and_pow_two_sub_one_of_lt_two_pow h4
    refine ⟨jsLower "stake_test".toList ++ '1' :: rest, ?_, ?_, ?_, ?_⟩
    · intro resolve
      unfold toStakeAddress
      rw [if_neg (by simp [isHexStr_ne_empty s hhex]),
          if_neg (by simp only [hex_no_stake1 s hhex]; exact Bool.false_ne_true),
          if_neg (by simp only [hex_no_addr1 s hhex]; exact Bool.false_ne_true),
          if_neg (by simpa using hhex), if_pos h28, if_neg hn1, hand]
      simp only [henc]
    · rw [if_neg hn1]
      exact bech32_decode_encode "stake_test".toList _ _ (by decide) (by decide) (by decide)
        (by decide) (by rw [hwlen]; decide) (toWords_lt _) henc
    · exact fromWords_toWords _ hbytes
    · simp [h28]

/-- C6 witness: the round trip at a concrete 28-byte hex input on
mainnet. -/
theorem c6_witness :
    (1 : Nat) < 16 ∧ isHexStr (List.replicate 56 '0') = true ∧
    (hexPairs (List.replicate 56 '0')).length = 28 ∧
    (∃ out,
      (∀ resolve, toStakeAddress 1 resolve (List.replicate 56 '0') = .ok (some out)) ∧
      bech32Decode out =
        some ((if (1 : Nat) = 1 then "stake".toList else "stake_test".toList),
          toWords ((((14 : Nat) <<< 4) ||| 1) :: hexPairs (List.replicate 56 '0'))) ∧
      fromWords (toWords ((((14 : Nat) <<< 4) ||| 1) :: hexPairs (List.replicate 56 '0'))) =
        some ((((14 : Nat) <<< 4) ||| 1) :: hexPairs (List.replicate 56 '0')) ∧
      ((((14 : Nat) <<< 4) ||| 1) :: hexPairs (List.replicate 56 '0')).length = 29) :=
  ⟨by decide, by decide, by decide,
   c6_hex28_roundtrip 1 (List.replicate 56 '0') (by decide) (by decide) (by decide)⟩
